import Mathlib

/-!
Verification of the annotation-to-coverage core of dram-viz.

This file gives a shallow embedding, in Lean 4, of the core functions of
src/dram_viz/processing/process_annotations.py and settles the frozen
claims about them.  Python strings are modelled as lists of characters,
pandas frames as plain lists of rows, networkx directed graphs as edge
lists with insertion order and duplicate suppression, Python sets as
Finsets, Python float arithmetic on coverage fractions as exact rational
arithmetic, and Python exceptions as Except values.  Functions of the
source that can diverge (the recursive descent of make_module_network and
the recursion of build_tree) are embedded with an explicit fuel argument
returning none when the fuel runs out; fuel is an artifact of the
embedding, never of the modelled code.
-/

set_option autoImplicit false
set_option synthInstance.maxSize 1000
set_option maxHeartbeats 1000000

/-- Python strings are modelled as lists of characters. -/
abbrev Str := List Char

/-! ## Expression parser: split_into_steps / first_open_paren_is_all
(process_annotations.py lines 123-162) -/

/-- One step of the running parenthesis level of split_into_steps:
an opening parenthesis raises the level, a closing one lowers it. -/
def parenStep (a : Int) (c : Char) : Int :=
  if c = '(' then a + 1 else if c = ')' then a - 1 else a

/-- Parenthesis nesting level after scanning a whole string, starting at 0.
This matches the running curr_level variable of split_into_steps. -/
def parenLevel (s : Str) : Int :=
  s.foldl parenStep 0

/-- The indices recorded in step_starts by split_into_steps (other than the
initial -1 and the final length): positions i such that after processing
character i the level is zero and character i is one of the separators. -/
def splitPositions (d : Str) (seps : List Char) : List Nat :=
  (List.range d.length).filter
    (fun i => parenLevel (d.take (i + 1)) = 0 ∧ d.getD i ' ' ∈ seps)

/-- The slices definition[a+1:b] taken over pairwise(step_starts) where
step_starts is -1, the given positions, then the length of the string. -/
def sliceChunks (d : Str) (ss : List Nat) : List Str :=
  (List.zip (0 :: ss.map (· + 1)) (ss ++ [d.length])).map
    (fun ab => (d.drop ab.1).take (ab.2 - ab.1))

/-- The segments of split_into_steps before parenthesis stripping. -/
def splitRawSteps (d : Str) (seps : List Char) : List Str :=
  sliceChunks d (splitPositions d seps)

/-- Loop body of first_open_paren_is_all: scan with a running level that
starts at 1, return false as soon as the level reaches 0. -/
def fopaGo : Int → Str → Bool
  | _, [] => true
  | lvl, c :: rest =>
    let l2 := if c = ')' then lvl - 1 else if c = '(' then lvl + 1 else lvl
    if l2 = 0 then false else fopaGo l2 rest

/-- Embedding of first_open_paren_is_all: scans the characters strictly
between the first and the last one, with the level starting at 1. -/
def first_open_paren_is_all (s : Str) : Bool :=
  fopaGo 1 ((s.drop 1).dropLast)

/-- The parenthesis stripping that split_into_steps applies to a segment:
when the segment starts with an opening and ends with a closing parenthesis
and the balance scan never reaches zero in between, both are removed. -/
def stripParens (s : Str) : Str :=
  if s.head? = some '(' ∧ s.getLast? = some ')' ∧ first_open_paren_is_all s
  then (s.drop 1).dropLast else s

/-- Embedding of split_into_steps: split at top-level separator positions,
then strip fully wrapping parentheses from each segment. -/
def split_into_steps (d : Str) (seps : List Char) : List Str :=
  (splitRawSteps d seps).map stripParens

/-! ## is_ko (process_annotations.py lines 165-166, KO_REGEX in
dram2_viz/definitions.py line 62)

KO_REGEX is the Python pattern "^K\d\d\d\d\d$" used with re.match.  The
matcher below hand-compiles exactly that pattern: a literal K, five
digit-class characters, then the Python dollar anchor, which accepts both
the end of the string and a position just before a single trailing
newline.  The digit class is modelled as the ASCII digits (Python \d also
accepts other Unicode decimal digits; the claims and all counterexamples
below only involve ASCII strings, where the model is exact). -/

/-- Python end-of-pattern anchor: the dollar of a non-MULTILINE pattern
matches at the end of the string and also just before a trailing newline. -/
def pyDollar (rest : Str) : Bool :=
  rest = [] || rest = ['\n']

/-- Match n digit-class atoms and then the dollar anchor. -/
def matchDigitsThenEnd : Nat → Str → Bool
  | 0, rest => pyDollar rest
  | _ + 1, [] => false
  | n + 1, c :: rest => c.isDigit && matchDigitsThenEnd n rest

/-- Embedding of is_ko: re.match of "^K\d\d\d\d\d$" against the token. -/
def is_ko (s : Str) : Bool :=
  match s with
  | [] => false
  | c :: rest => c = 'K' && matchDigitsThenEnd 5 rest

/-! ## Directed graphs (networkx DiGraph as used by the module network)

A networkx DiGraph is modelled by its edge list in insertion order;
add_edge is idempotent, and the node list is the list of edge endpoints in
first-appearance order. -/

/-- Edge list of a networkx style directed graph, in insertion order. -/
structure DiGraph where
  edges : List (Str × Str)
deriving DecidableEq, Repr

/-- Embedding of networkx add_edge: append the edge unless already present. -/
def addEdge (g : DiGraph) (u v : Str) : DiGraph :=
  if (u, v) ∈ g.edges then g else ⟨g.edges ++ [(u, v)]⟩

/-- Keep the first occurrence of every element, preserving order. -/
def uniqueFirst {α : Type} [DecidableEq α] (l : List α) : List α :=
  l.foldl (fun acc a => if a ∈ acc then acc else acc ++ [a]) []

/-- Node list of the graph: edge endpoints in first-appearance order. -/
def nodesList (g : DiGraph) : List Str :=
  uniqueFirst (g.edges.flatMap (fun e => [e.1, e.2]))

/-- Successors of a node, in edge insertion order (networkx adjacency). -/
def successors (g : DiGraph) (u : Str) : List Str :=
  (g.edges.filter (fun e => e.1 = u)).map (fun e => e.2)

/-- Out-degree of a node (edges are already duplicate-free). -/
def outDegree (g : DiGraph) (u : Str) : Nat :=
  (g.edges.filter (fun e => e.1 = u)).length

/-- The start sentinel node. -/
def startS : Str := "start".toList

/-- The end sentinel node. -/
def endS : Str := "end".toList

/-! ## make_module_network (process_annotations.py lines 169-184)

The Python function recurses on substrings of the definition and does not
terminate on some inputs (see claim C10), so the embedding carries fuel:
one unit is consumed per recursion level, and none means the fuel ran
out.  The two loops of the body are split out as list recursions that are
parameterised by the recursive call, which keeps the definition structural
and lets the lemmas below reason about one loop at a time. -/

/-- For a substep that is a KO, add an edge from every current parent. -/
def addKoEdges (net : DiGraph) (prev : List Str) (sub : Str) : DiGraph :=
  prev.foldl (fun n p => addEdge n p sub) net

/-- Inner loop of make_module_network over the plus-separated substeps:
a KO substep becomes the single new parent after edges are added from all
current parents; any other substep is recursed into via rec. -/
def mmnSubsteps (rec : Str → DiGraph → List Str → Option (DiGraph × List Str)) :
    List Str → DiGraph → List Str → Option (DiGraph × List Str)
  | [], net, prev => some (net, prev)
  | sub :: rest, net, prev =>
    if is_ko sub then
      mmnSubsteps rec rest (addKoEdges net prev sub) [sub]
    else
      (rec sub net prev).bind (fun r => mmnSubsteps rec rest r.1 r.2)

/-- Outer loop of make_module_network over the comma-separated steps: every
step starts again from the callers parent nodes, and the exit nodes of all
steps are collected. -/
def mmnSteps (rec : Str → DiGraph → List Str → Option (DiGraph × List Str)) :
    List Str → DiGraph → List Str → Option (DiGraph × List Str)
  | [], net, _ => some (net, [])
  | step :: rest, net, parents =>
    (mmnSubsteps rec (split_into_steps step ['+']) net parents).bind (fun r =>
      (mmnSteps rec rest r.1 parents).bind (fun r2 => some (r2.1, r.2 ++ r2.2)))

/-- Embedding of make_module_network. The top level call uses the empty
graph and the parent list containing only the start sentinel, matching the
Python defaults network=None and parent_nodes=("start",). -/
def make_module_network : Nat → Str → DiGraph → List Str → Option (DiGraph × List Str)
  | 0, _, _, _ => none
  | fuel + 1, d, net, parents =>
    mmnSteps (fun s n p => make_module_network fuel s n p)
      (split_into_steps d [',']) net parents

/-! ## End-node wiring (make_etc_coverage_df lines 230-234)

After building the module network, make_etc_coverage_df adds an edge to
the end sentinel from every node with no outgoing edge. -/

/-- Nodes of the graph with no outgoing edge, in node-list order. -/
def noOutNodes (g : DiGraph) : List Str :=
  (nodesList g).filter (fun n => outDegree g n = 0)

/-- Embedding of the end-node wiring of make_etc_coverage_df: connect every
node with no outgoing edge to the end sentinel. -/
def add_end_edges (g : DiGraph) : DiGraph :=
  (noOutNodes g).foldl (fun h n => addEdge h n endS) g

/-! ## get_module_coverage (process_annotations.py lines 187-207)

nx.all_simple_paths is embedded as a depth-first enumeration with the
visited set threaded explicitly; it raises NodeNotFound when the source or
the target is not a node of the graph.  The body of get_module_coverage
divides by the interior length of each path before comparing, so a path
whose interior is empty raises ZeroDivisionError; both exceptions are
modelled as Except.error. -/

/-- Depth-first enumeration of the simple paths from u to the target that
avoid the visited list.  The fuel bounds the path length; the caller passes
one more than the number of nodes, which every simple path satisfies. -/
def simplePathsAux (g : DiGraph) (target : Str) :
    Nat → Str → List Str → List (List Str)
  | 0, _, _ => []
  | fuel + 1, u, visited =>
    if u = target then [[u]]
    else
      ((successors g u).filter (fun v => ¬ v ∈ u :: visited)).flatMap
        (fun v => (simplePathsAux g target fuel v (u :: visited)).map (u :: ·))

/-- Embedding of nx.all_simple_paths from source to target: NodeNotFound
when either endpoint is missing, otherwise the list of simple paths. -/
def allSimplePaths (g : DiGraph) (source target : Str) :
    Except String (List (List Str)) :=
  if source ∈ nodesList g then
    if target ∈ nodesList g then
      Except.ok (simplePathsAux g target ((nodesList g).length + 1) source [])
    else Except.error "NodeNotFound"
  else Except.error "NodeNotFound"

/-- Running maximum state of get_module_coverage: coverage, genes on the
best path, missing genes of the best path, length of the best path. -/
structure CoverageState where
  maxCoverage : ℚ
  maxCoverageGenes : Finset Str
  maxCoverageMissingGenes : Finset Str
  maxPathLen : Nat
deriving DecidableEq

/-- Loop body of get_module_coverage over one enumerated path: the interior
of the path (endpoints removed) is intersected with the observed genes and
the state is replaced when the coverage is strictly larger.  The quotient
len(overlap)/len(net_path) is written mkRat (the rational n/d) so that the
definition evaluates inside the kernel; Rat.mkRat_eq_div converts. -/
def coverageStep (genesPresent : Finset Str) (st : CoverageState)
    (path : List Str) : Except String CoverageState :=
  let netPath : Finset Str := ((path.drop 1).dropLast).toFinset
  let overlap := netPath ∩ genesPresent
  if netPath.card = 0 then Except.error "ZeroDivisionError"
  else
    let coverage : ℚ := mkRat overlap.card netPath.card
    if st.maxCoverage < coverage then
      Except.ok ⟨coverage, overlap, netPath \ genesPresent, netPath.card⟩
    else Except.ok st

/-- Embedding of get_module_coverage: fold the coverage comparison over all
simple start-to-end paths, starting from the sentinel state with coverage
-1, empty gene sets and length 0, and return the statistics of the best
path in the order of the Python return statement. -/
def get_module_coverage (module_net : DiGraph) (genes_present : Finset Str) :
    Except String (Nat × Nat × ℚ × Finset Str × Finset Str) :=
  match allSimplePaths module_net startS endS with
  | Except.error e => Except.error e
  | Except.ok paths =>
    (paths.foldlM (coverageStep genes_present) ⟨-1, ∅, ∅, 0⟩).map
      (fun st => (st.maxPathLen, st.maxCoverageGenes.card, st.maxCoverage,
        st.maxCoverageGenes, st.maxCoverageMissingGenes))

instance {ε α : Type} [DecidableEq ε] [DecidableEq α] : DecidableEq (Except ε α) :=
  fun x y =>
  match x, y with
  | .ok a, .ok b =>
    if h : a = b then isTrue (by rw [h]) else isFalse (by simp [h])
  | .error a, .error b =>
    if h : a = b then isTrue (by rw [h]) else isFalse (by simp [h])
  | .ok _, .error _ => isFalse (by simp)
  | .error _, .ok _ => isFalse (by simp)

/-! ## build_module_net / get_module_step_coverage
(process_annotations.py lines 25-67)

A module step table is a list of rows, each carrying the path key and the
ko of the row; the path strings "step,alternative" are modelled as pairs
of numbers, which is exactly the information int-parsing extracts from
them, and the two node kinds of the step graph (path nodes and the
synthetic end_step_N nodes) become the two constructors of StepNode, so
the substring test "end_step" in node becomes a constructor test (numeric
path strings never contain that substring).  Python sets of kos are
modelled as duplicate-free lists; only their membership, size and sorted
image are ever observed, so the list order never matters.  The module id
and name metadata do not influence any claim and are omitted. -/

/-- Intersection of two sets-as-lists. -/
def listInter (a b : List Str) : List Str :=
  a.filter (fun x => x ∈ b)

/-- Union of two sets-as-lists, keeping the left operand first. -/
def listUnion (a b : List Str) : List Str :=
  a ++ b.filter (fun x => ¬ x ∈ a)

/-- A node of the stepwise module graph: a path node "step,alternative" or
an end_step_N node. -/
inductive StepNode where
  | path (step alt : Nat)
  | endStep (step : Nat)
deriving DecidableEq

/-- Whether a node is one of the synthetic end_step_N nodes; this is the
"end_step" in node test of get_module_step_coverage. -/
def StepNode.isEndStep : StepNode → Bool
  | .path _ _ => false
  | .endStep _ => true

/-- One row of a module step table: the parsed path pair and the ko. -/
abbrev StepRow := (Nat × Nat) × Str

/-- The stepwise module graph: the stored num_steps attribute, the path
nodes with their ko sets in insertion order, the edge list, and the node
list in networkx insertion order. -/
structure StepNet where
  numSteps : Nat
  pathNodes : List ((Nat × Nat) × List Str)
  stepEdges : List (StepNode × StepNode)
  stepNodesList : List StepNode
deriving DecidableEq

/-- The set of kos attached to one path key: the kos of all rows that
carry that path. -/
def kosOfPath (rows : List StepRow) (p : Nat × Nat) : List Str :=
  uniqueFirst ((rows.filter (fun r => r.1 = p)).map (fun r => r.2))

/-- Embedding of build_module_net.  num_steps is the largest step number
over the paths of the table (the Lean fold returns 0 on an empty table
where Python max would raise; all claims quantify over nonempty tables).
Each distinct path, taken in first-appearance order, contributes its path
node with its ko set, the incoming edge from end_step(step-1) when the
step is nonzero, and the outgoing edge to end_step(step). -/
def build_module_net (rows : List StepRow) : StepNet :=
  let paths := uniqueFirst (rows.map (fun r => r.1))
  { numSteps := (rows.map (fun r => r.1.1)).foldl Nat.max 0
    pathNodes := paths.map (fun p => (p, kosOfPath rows p))
    stepEdges := paths.flatMap (fun p =>
      (if p.1 ≠ 0 then [(StepNode.endStep (p.1 - 1), StepNode.path p.1 p.2)] else [])
        ++ [(StepNode.path p.1 p.2, StepNode.endStep p.1)])
    stepNodesList := uniqueFirst (paths.flatMap (fun p =>
      StepNode.path p.1 p.2
        :: (if p.1 ≠ 0 then [StepNode.endStep (p.1 - 1)] else [])
        ++ [StepNode.endStep p.1])) }

/-- The path keys that survive the pruning of get_module_step_coverage:
those whose ko set meets the observed kos. -/
def survivingPaths (kos : List Str) (net : StepNet) :
    List ((Nat × Nat) × List Str) :=
  net.pathNodes.filter (fun pn => (listInter pn.2 kos).length ≠ 0)

/-- Whether a node is still present after pruning: end_step nodes always
survive, path nodes survive when their ko set meets the observed kos. -/
def survivesPruning (kos : List Str) (net : StepNet) : StepNode → Bool
  | .path s a => (survivingPaths kos net).any (fun pn => pn.1 = (s, a))
  | .endStep _ => true

/-- In-degree of a node in the pruned graph: incoming edges whose source
node survived the pruning. -/
def prunedInDegree (kos : List Str) (net : StepNet) (n : StepNode) : Nat :=
  (net.stepEdges.filter
    (fun e => e.2 = n ∧ survivesPruning kos net e.1 = true)).length

/-- Lexicographic comparison of strings by character codes, as the Python
sorted builtin orders strings. -/
def strLe (a b : Str) : Bool :=
  match a, b with
  | [], _ => true
  | _ :: _, [] => false
  | c :: ra, d :: rb => if c = d then strLe ra rb else decide (c < d)

/-- Insert into a sorted list of strings. -/
def strInsert (a : Str) : List Str → List Str
  | [] => [a]
  | b :: rest => if strLe a b then a :: b :: rest else b :: strInsert a rest

/-- Insertion sort by strLe. -/
def strSort (l : List Str) : List Str :=
  l.foldr strInsert []

/-- Embedding of get_module_step_coverage: prune the path nodes that miss
the observed kos, collect the observed overlap, count the end_step nodes
of the pruned graph with no remaining incoming edge as missing steps, and
return num_steps+1, the steps present, the coverage fraction
(num_steps_present/num_steps, written mkRat so it computes) and the
sorted overlap. -/
def get_module_step_coverage (kos : List Str) (net : StepNet) :
    Nat × Nat × ℚ × List Str :=
  let moduleKosPresent : List Str :=
    net.pathNodes.foldl
      (fun acc pn =>
        if (listInter pn.2 kos).length ≠ 0 then listUnion acc (listInter pn.2 kos)
        else acc) []
  let missingSteps :=
    ((net.stepNodesList.filter (fun n => survivesPruning kos net n)).filter
      (fun n => n.isEndStep ∧ prunedInDegree kos net n = 0)).length
  let numSteps := net.numSteps + 1
  let numStepsPresent := numSteps - missingSteps
  (numSteps, numStepsPresent, mkRat numStepsPresent numSteps,
    strSort moduleKosPresent)

/-! ## make_module_coverage_df (process_annotations.py lines 70-120)

The annotation table is modelled by its column-name list and its rows,
each row being the gene id together with the cell lookup by column name; a
none cell models a NaN or non-string cell, which the Python body skips via
the type(ko_list) is str test.  The module id and name metadata were
omitted from StepNet, so the output rows omit the module_name column; no
claim mentions it. -/

/-- One annotation table: column names plus rows of gene id and cells. -/
structure AnnotationDf where
  columns : List Str
  rows : List (Str × (Str → Option Str))

/-- The fixed priority list of identifier column names tried by
make_module_coverage_df. -/
def koIdNames : List Str :=
  ["kegg_id".toList, "kofam_id".toList, "ko_id".toList]

/-- The for-loop with break over the candidate column names: the first
name of the priority list that is a column of the table. -/
def findKoColumn (cols : List Str) : Option Str :=
  koIdNames.find? (fun n => n ∈ cols)

/-- The kos_to_genes pairs: for each row whose chosen cell is a string,
one (ko, gene) pair per comma-separated ko of the cell. -/
def kosToGenes (df : AnnotationDf) (koId : Str) : List (Str × Str) :=
  df.rows.flatMap (fun r =>
    match r.2 koId with
    | some s => (s.splitOn ',').map (fun ko => (ko, r.1))
    | none => [])

/-- Join a list of strings with commas, as ",".join does. -/
def joinComma (l : List Str) : Str :=
  List.intercalate [','] l

/-- The error message raised when no candidate identifier column exists. -/
def koColumnErrorMsg : Str :=
  ("No KEGG or KOfam id column could be found. "
    ++ "These names were tried: kegg_id, kofam_id, ko_id.").toList

/-- The per-module body of make_module_coverage_df once the identifier
column is chosen: run the stepwise coverage of every module net against
the observed ko set and assemble the output columns. -/
def makeModuleCoverageRows (df : AnnotationDf) (koId : Str)
    (nets : List (Str × StepNet)) :
    List (Str × (Nat × Nat × ℚ × Nat × Str × Str)) :=
  let ktg := kosToGenes df koId
  let kosObserved := uniqueFirst (ktg.map (fun kg => kg.1))
  nets.map (fun mn =>
    let r := get_module_step_coverage kosObserved mn.2
    let moduleKos := r.2.2.2
    let moduleGenes := strSort (moduleKos.flatMap (fun ko =>
      ((ktg.filter (fun kg => kg.1 = ko)).map (fun kg => kg.2))))
    (mn.1, (r.1, r.2.1, r.2.2.1, moduleKos.length,
      joinComma moduleKos, joinComma moduleGenes)))

/-- Embedding of make_module_coverage_df: find the identifier column by
priority, raise the descriptive ValueError when none exists, and otherwise
proceed with the first match. -/
def make_module_coverage_df (df : AnnotationDf) (nets : List (Str × StepNet)) :
    Except Str (List (Str × (Nat × Nat × ℚ × Nat × Str × Str))) :=
  match findKoColumn df.columns with
  | none => Except.error koColumnErrorMsg
  | some c => Except.ok (makeModuleCoverageRows df c nets)

/-! ## make_functional_df (process_annotations.py lines 267-309)

The function definition table is modelled already grouped by function
name (pandas groupby with sort=False yields the groups in first-appearance
order), and the per-genome identifier sets of annotation_ids_by_row are
modelled as the genome-to-id-set list the body derives from them.  The
str.strip/fillna preprocessing of the frame is reflected in the parsing of
the function_ids cell; NaN cells have already been replaced by empty
strings there, so descriptive cells are plain strings. -/

/-- One row of the function definition table. -/
structure FunctionRow where
  category : Str
  subcategory : Str
  function_name : Str
  function_ids : Str
  long_function_name : Str
  gene_symbol : Str
deriving DecidableEq

/-- Python str.strip: remove whitespace from both ends. -/
def pyStrip (s : Str) : Str :=
  ((s.dropWhile Char.isWhitespace).reverse.dropWhile Char.isWhitespace).reverse

/-- The identifier set of one function definition row:
set(i.strip() for i in row.function_ids.strip().split(",")). -/
def functionIdSet (r : FunctionRow) : List Str :=
  uniqueFirst (((pyStrip r.function_ids).splitOn ',').map pyStrip)

/-- The per-row presence test of make_functional_df: the genome id set
meets the identifier set of the row. -/
def presentInBin (idSet : List Str) (r : FunctionRow) : Bool :=
  (listInter idSet (functionIdSet r)).length ≠ 0

/-- Embedding of get_ordered_uniques (the strings here are never NaN
because the frame was filled with empty strings). -/
def get_ordered_uniques (l : List Str) : List Str :=
  uniqueFirst l

/-- One output row of make_functional_df. -/
structure FunctionOutRow where
  category : Str
  subcategory : Str
  function_name : Str
  functions_present_joined : Str
  long_names_joined : Str
  gene_symbols_joined : Str
  genome : Str
  present : Bool
  category_function_name : Str
deriving DecidableEq

/-- A placeholder row; groupby frames are never empty, so the default of
headD below is never read. -/
def defaultFunctionRow : FunctionRow :=
  ⟨[], [], [], [], [], []⟩

/-- The row that make_functional_df emits for one function frame and one
genome: the presence flag is the conjunction, over the rows of the frame,
of the per-row intersection tests. -/
def mkFunctionalRow (frame : List FunctionRow) (genome : Str)
    (idSet : List Str) : FunctionOutRow :=
  let presents := frame.map (fun r => presentInBin idSet r)
  let functionsPresent := frame.foldl
    (fun acc r => listUnion acc (listInter idSet (functionIdSet r))) []
  let row0 := frame.headD defaultFunctionRow
  { category := row0.category
    subcategory := row0.subcategory
    function_name := row0.function_name
    functions_present_joined := List.intercalate ", ".toList functionsPresent
    long_names_joined :=
      List.intercalate "; ".toList
        (get_ordered_uniques (frame.map (fun r => r.long_function_name)))
    gene_symbols_joined :=
      List.intercalate "; ".toList
        (get_ordered_uniques (frame.map (fun r => r.gene_symbol)))
    genome := genome
    present := presents.all (fun b => b)
    category_function_name :=
      row0.category ++ ": ".toList ++ row0.function_name }

/-- Embedding of make_functional_df: one output row per function frame and
genome, functions outermost. -/
def make_functional_df (genomeIds : List (Str × List Str))
    (frames : List (Str × List FunctionRow)) : List FunctionOutRow :=
  frames.flatMap (fun fr =>
    genomeIds.map (fun gp => mkFunctionalRow fr.2 gp.1 gp.2))

/-! ## build_tree (process_annotations.py lines 462-511)

The edge frame is its list of (source, target) rows; the state dictionary
attached to every node carries no information any claim mentions and is
omitted.  The recursion of recurse_tree diverges on cyclic edge lists, so
the embedding carries fuel.  The nested tree is traversed by allIdsDepth,
which also takes a depth bound so that it evaluates inside the kernel;
quantifying the bound captures every depth. -/

/-- A node of the tree built by build_tree: its label, its id, and its
children (always present, possibly empty). -/
structure TreeNode where
  text : Str
  id : Str
  children : List TreeNode

/-- The target values of the edges whose source is the given value, in row
order. -/
def childTargets (edges : List (Str × Str)) (source : Str) : List Str :=
  (edges.filter (fun e => e.1 = source)).map (fun e => e.2)

/-- The loop of recurse_tree over the child targets: each target gets its
id from the callback and its children from the recursive call with the new
id as parent id. -/
def recurseTargets (rec : Str → Str → Option (List TreeNode))
    (idCb : Str → Str → Str → Str) (source parentId : Str) :
    List Str → Option (List TreeNode)
  | [] => some []
  | t :: rest =>
    (rec t (idCb source t parentId)).bind (fun cs =>
      (recurseTargets rec idCb source parentId rest).map (fun others =>
        ⟨t, idCb source t parentId, cs⟩ :: others))

/-- Embedding of recurse_tree, with fuel for the recursion depth. -/
def recurse_tree (edges : List (Str × Str)) (idCb : Str → Str → Str → Str) :
    Nat → Str → Str → Option (List TreeNode)
  | 0, _, _ => none
  | fuel + 1, source, parentId =>
    recurseTargets (fun t pid => recurse_tree edges idCb fuel t pid)
      idCb source parentId (childTargets edges source)

/-- The root labels of build_tree: the source values of the rows whose
source never appears as a target, deduplicated in first-appearance order
(pandas unique). -/
def rootLabels (edges : List (Str × Str)) : List Str :=
  uniqueFirst
    ((edges.filter (fun e => ¬ e.1 ∈ edges.map (fun f => f.2))).map (fun e => e.1))

/-- The loop of build_tree over the roots: every root node carries its own
label as id and passes it as the parent id of its children. -/
def buildRoots (edges : List (Str × Str)) (idCb : Str → Str → Str → Str)
    (fuel : Nat) : List Str → Option (List TreeNode)
  | [] => some []
  | r :: rest =>
    (recurse_tree edges idCb fuel r r).bind (fun cs =>
      (buildRoots edges idCb fuel rest).map (fun others => ⟨r, r, cs⟩ :: others))

/-- Embedding of build_tree. -/
def build_tree (edges : List (Str × Str)) (idCb : Str → Str → Str → Str)
    (fuel : Nat) : Option (List TreeNode) :=
  buildRoots edges idCb fuel (rootLabels edges)

/-- All node ids of a forest, down to the given depth; a forest produced
with fuel f has depth at most f, so every bound at least f lists all ids. -/
def allIdsDepth : Nat → List TreeNode → List Str
  | 0, _ => []
  | depth + 1, forest =>
    forest.foldr (fun n acc => n.id :: allIdsDepth depth n.children ++ acc) []

/-- The id callback the repository passes to build_tree (make_product.py):
lambda source, child, parent_id: parent_id, a semicolon, a space, child. -/
def semicolonCb (_source target parentId : Str) : Str :=
  parentId ++ "; ".toList ++ target

/-! ## subsOf and the token precondition of make_module_network (claim C10) -/

/-- The atomic split make_module_network applies at one level: the
comma-separated steps, each split again into plus-separated substeps. -/
def subsOf (d : Str) : List Str :=
  (split_into_steps d [',']).flatMap (fun s => split_into_steps s ['+'])

/-- The precondition of claim C10 as a fuel-indexed check: every atomic
token obtained by repeatedly splitting on commas and pluses at nesting
depth zero and stripping fully wrapping parentheses is a gene identifier.
A definition whose one-element split is itself and which is not an
identifier is the atomic non-identifier token that makes the Python
function recurse forever. -/
def atoms_ok : Nat → Str → Bool
  | 0, _ => false
  | f + 1, d =>
    if is_ko d then true
    else if subsOf d = [d] then false
    else (subsOf d).all (atoms_ok f)

/-! ## Reachability (claim C6) -/

/-- The edge relation of a graph. -/
def edgeRel (g : DiGraph) (a b : Str) : Prop :=
  (a, b) ∈ g.edges

/-- Reachability along edges: the reflexive transitive closure. -/
def Reaches (g : DiGraph) : Str → Str → Prop :=
  Relation.ReflTransGen (edgeRel g)

/-! ## The spec-side identifier pattern (claim C5)

This definition follows the words of the spec, not the code: the letter K
followed by exactly five decimal digits and nothing else.  It exists to be
compared with the embedded is_ko. -/

/-- Modelled from the spec: is_gene_identifier is true iff the token is
the letter K followed by exactly five decimal digits and nothing else. -/
def is_gene_identifier_spec (s : Str) : Bool :=
  match s with
  | [] => false
  | c :: rest => c = 'K' && rest.length = 5 && rest.all Char.isDigit

/-- Escape-encode a string by prefixing every character with E; used only
to build a provably injective id callback for the witness of claim C9. -/
def encStr : Str → Str
  | [] => []
  | c :: rest => 'E' :: c :: encStr rest

/-- A provably injective, length-increasing id callback for witnesses:
the three arguments escape-encoded and joined with the letter S. -/
def encCb (s t p : Str) : Str :=
  encStr s ++ ('S' :: (encStr t ++ ('S' :: encStr p)))

/-- The ids an id callback can generate below a given parent id: the
callback applied with the parent as third argument, or applied on top of an
already generated id.  Every id of a subtree built by recurse_tree under a
parent id is generated in this sense. -/
inductive Derived (f : Str → Str → Str → Str) (p : Str) : Str → Prop
  | base (s t : Str) : Derived f p (f s t p)
  | step (s t y : Str) : Derived f p y → Derived f p (f s t y)

/-! # Lemmas and theorems -/

/-! ## General list helpers -/

theorem uniqueFirst_go_mem {α : Type} [DecidableEq α] (l acc : List α) (x : α) :
    x ∈ l.foldl (fun acc a => if a ∈ acc then acc else acc ++ [a]) acc ↔
      x ∈ acc ∨ x ∈ l := by
  induction l generalizing acc with
  | nil => simp
  | cons a t ih =>
    simp only [List.foldl_cons]
    by_cases h : a ∈ acc
    · rw [if_pos h, ih]
      constructor
      · rintro (hx | hx)
        · exact Or.inl hx
        · exact Or.inr (List.mem_cons_of_mem _ hx)
      · rintro (hx | hx)
        · exact Or.inl hx
        · rcases List.mem_cons.1 hx with rfl | hx
          · exact Or.inl h
          · exact Or.inr hx
    · rw [if_neg h, ih]
      simp only [List.mem_append, List.mem_singleton, List.mem_cons]
      tauto

theorem mem_uniqueFirst {α : Type} [DecidableEq α] (l : List α) (x : α) :
    x ∈ uniqueFirst l ↔ x ∈ l := by
  rw [uniqueFirst, uniqueFirst_go_mem]
  simp

theorem uniqueFirst_go_nodup {α : Type} [DecidableEq α] (l : List α) (acc : List α)
    (hacc : acc.Nodup) :
    (l.foldl (fun acc a => if a ∈ acc then acc else acc ++ [a]) acc).Nodup := by
  induction l generalizing acc with
  | nil => exact hacc
  | cons a t ih =>
    simp only [List.foldl_cons]
    by_cases h : a ∈ acc
    · rw [if_pos h]; exact ih _ hacc
    · rw [if_neg h]
      refine ih _ ?_
      simpa [List.nodup_append, hacc] using h

theorem nodup_uniqueFirst {α : Type} [DecidableEq α] (l : List α) :
    (uniqueFirst l).Nodup :=
  uniqueFirst_go_nodup l [] List.nodup_nil

/-! ## Lemmas about is_ko (claim C5) -/

theorem matchDigitsThenEnd_iff (n : Nat) (t : Str) :
    matchDigitsThenEnd n t = true ↔
      ∃ ds rest : Str, t = ds ++ rest ∧ ds.length = n ∧
        (∀ c ∈ ds, c.isDigit = true) ∧ (rest = [] ∨ rest = ['\n']) := by
  induction n generalizing t with
  | zero =>
    constructor
    · intro h
      refine ⟨[], t, by simp, rfl, by simp, ?_⟩
      simpa [matchDigitsThenEnd, pyDollar, Bool.or_eq_true, decide_eq_true_eq] using h
    · rintro ⟨ds, rest, rfl, hlen, -, hrest⟩
      rw [List.length_eq_zero] at hlen
      subst hlen
      simp only [matchDigitsThenEnd, pyDollar, Bool.or_eq_true, decide_eq_true_eq,
        List.nil_append]
      exact hrest
  | succ n ih =>
    cases t with
    | nil =>
      simp only [matchDigitsThenEnd, Bool.false_eq_true, false_iff]
      rintro ⟨ds, rest, h, hlen, -, -⟩
      cases ds with
      | nil => simp at hlen
      | cons a u => simp at h
    | cons c rest =>
      simp only [matchDigitsThenEnd, Bool.and_eq_true, ih]
      constructor
      · rintro ⟨hc, ds, r, rfl, hlen, hds, hr⟩
        exact ⟨c :: ds, r, rfl, by simp [hlen], by
          intro x hx
          rcases List.mem_cons.1 hx with rfl | hx
          · exact hc
          · exact hds x hx, hr⟩
      · rintro ⟨ds, r, heq, hlen, hds, hr⟩
        cases ds with
        | nil => simp at hlen
        | cons a u =>
          rw [List.cons_append] at heq
          injection heq with h1 h2
          subst h1
          refine ⟨hds c (List.mem_cons_self _ _), u, r, h2.symm ▸ rfl, ?_, ?_, hr⟩
          · simpa using hlen
          · intro x hx; exact hds x (List.mem_cons_of_mem _ hx)

theorem is_ko_iff (s : Str) :
    is_ko s = true ↔
      (is_gene_identifier_spec s = true ∨
        ∃ core : Str, s = core ++ ['\n'] ∧ is_gene_identifier_spec core = true) := by
  cases s with
  | nil => simp [is_ko, is_gene_identifier_spec]
  | cons c rest =>
    simp only [is_ko, Bool.and_eq_true, decide_eq_true_eq, matchDigitsThenEnd_iff]
    constructor
    · rintro ⟨rfl, ds, r, rfl, hlen, hds, hr | hr⟩
      · subst hr
        left
        simp only [is_gene_identifier_spec, Bool.and_eq_true, decide_eq_true_eq,
          List.all_eq_true, List.append_nil]
        exact ⟨⟨trivial, hlen⟩, hds⟩
      · subst hr
        right
        refine ⟨'K' :: ds, by simp, ?_⟩
        simp only [is_gene_identifier_spec, Bool.and_eq_true, decide_eq_true_eq,
          List.all_eq_true]
        exact ⟨⟨trivial, hlen⟩, hds⟩
    · rintro (h | ⟨core, heq, h⟩)
      · unfold is_gene_identifier_spec at h
        simp only [Bool.and_eq_true, decide_eq_true_eq, List.all_eq_true] at h
        exact ⟨h.1.1, rest, [], by simp, h.1.2, fun x hx => h.2 x hx, Or.inl rfl⟩
      · cases core with
        | nil => simp [is_gene_identifier_spec] at h
        | cons c2 rest2 =>
          rw [List.cons_append] at heq
          injection heq with h1 h2
          unfold is_gene_identifier_spec at h
          simp only [Bool.and_eq_true, decide_eq_true_eq, List.all_eq_true] at h
          subst h1 h2
          exact ⟨h.1.1, rest2, ['\n'], rfl, h.1.2, fun x hx => h.2 x hx, Or.inr rfl⟩

/-! ## Claim C5 -/

/-- Claim C5 counterexample: the token K00000 followed by a newline is
accepted by is_ko (the Python dollar anchor matches before a trailing
newline) although it is not the letter K followed by exactly five decimal
digits and nothing else, so the claimed equivalence fails at this token. -/
theorem claim_C5_counterexample :
    is_ko "K00000\n".toList = true ∧
      is_gene_identifier_spec "K00000\n".toList = false := by decide

/-- Claim C5, amended: for every token string (of characters the model
covers exactly, the ASCII ones), is_ko returns true iff the token is the
letter K followed by exactly five decimal digits, either alone or followed
by one trailing newline, which Python re also accepts at a dollar anchor;
in particular K00000 is accepted and K1 and M00001 are rejected. -/
theorem claim_C5 :
    (∀ s : Str, is_ko s = true ↔
      (is_gene_identifier_spec s = true ∨
        ∃ core : Str, s = core ++ ['\n'] ∧ is_gene_identifier_spec core = true)) ∧
    is_ko "K00000".toList = true ∧ is_ko "K1".toList = false ∧
      is_ko "M00001".toList = false :=
  ⟨is_ko_iff, by decide, by decide, by decide⟩

/-! ## Claim C1 -/

/-- Claim C1 counterexample: a graph that contains both sentinel nodes but
no start-to-end path (start goes only to K00001, only K00002 reaches end).
get_module_coverage returns normally with the degenerate result of path
length 0 and coverage -1 instead of raising, which refutes the claim. -/
theorem claim_C1_counterexample :
    get_module_coverage ⟨[(startS, "K00001".toList), ("K00002".toList, endS)]⟩
      {"K00001".toList} = Except.ok (0, 0, -1, ∅, ∅) := by decide

/-- Claim C1, amended: when the module graph contains the start and end
nodes but admits no start-to-end path, get_module_coverage does not raise:
it returns normally with the sentinel values path length 0, present count
0, coverage -1 and empty present and missing sets.  (Only when one of the
two sentinel nodes is absent does the path enumerator raise NodeNotFound.) -/
theorem claim_C1 (g : DiGraph) (genes : Finset Str)
    (hs : startS ∈ nodesList g) (ht : endS ∈ nodesList g)
    (hnp : simplePathsAux g endS ((nodesList g).length + 1) startS [] = []) :
    get_module_coverage g genes = Except.ok (0, 0, -1, ∅, ∅) := by
  rw [get_module_coverage, allSimplePaths, if_pos hs, if_pos ht, hnp]
  simp [Except.map, pure, Except.pure]

/-- Claim C1 witness: the amended theorem applied to the concrete pathless
graph of the counterexample. -/
theorem claim_C1_witness :
    get_module_coverage ⟨[(startS, "K00001".toList), ("K00002".toList, endS)]⟩
      ∅ = Except.ok (0, 0, -1, ∅, ∅) :=
  claim_C1 ⟨[(startS, "K00001".toList), ("K00002".toList, endS)]⟩ ∅
    (by decide) (by decide) (by decide)

/-! ## Claim C2 -/

/-- Claim C2: on the definition K00001+(K00002,K00003+K00013)+K00004 the
module network has exactly the six claimed edges, and after adding the
edge from K00004 to end, get_module_coverage with observed set containing
only K00001 returns path length 3, present count 1, coverage one third,
present set containing K00001 and missing set of K00002 and K00004. -/
theorem claim_C2 :
    ∃ g : DiGraph, ∃ exits : List Str,
      make_module_network 10 "K00001+(K00002,K00003+K00013)+K00004".toList
          ⟨[]⟩ [startS] = some (g, exits) ∧
      g.edges.toFinset =
        {(startS, "K00001".toList), ("K00001".toList, "K00002".toList),
          ("K00001".toList, "K00003".toList), ("K00002".toList, "K00004".toList),
          ("K00003".toList, "K00013".toList), ("K00013".toList, "K00004".toList)} ∧
      get_module_coverage (addEdge g "K00004".toList endS) {"K00001".toList}
        = Except.ok (3, 1, 1/3, {"K00001".toList},
            {"K00002".toList, "K00004".toList}) := by
  refine ⟨⟨[(startS, "K00001".toList),
      ("K00001".toList, "K00002".toList),
      ("K00001".toList, "K00003".toList),
      ("K00003".toList, "K00013".toList),
      ("K00002".toList, "K00004".toList),
      ("K00013".toList, "K00004".toList)]⟩, ["K00004".toList],
    by decide, by decide, ?_⟩
  have h : get_module_coverage
      (addEdge ⟨[(startS, "K00001".toList),
        ("K00001".toList, "K00002".toList),
        ("K00001".toList, "K00003".toList),
        ("K00003".toList, "K00013".toList),
        ("K00002".toList, "K00004".toList),
        ("K00013".toList, "K00004".toList)]⟩ "K00004".toList endS)
      {"K00001".toList}
      = Except.ok (3, 1, mkRat 1 3, {"K00001".toList},
          {"K00002".toList, "K00004".toList}) := by decide
  rw [h]
  have h13 : (mkRat 1 3 : ℚ) = 1/3 := by
    rw [Rat.mkRat_eq_div]; norm_num
  rw [h13]

/-! ## Claim C7 -/

/-- Claim C7: make_module_coverage_df fails fast with the descriptive
error message when none of kegg_id, kofam_id, ko_id is a column of the
annotation table, and otherwise proceeds with the first present name in
that priority order. -/
theorem claim_C7 (df : AnnotationDf) (nets : List (Str × StepNet)) :
    ((¬ "kegg_id".toList ∈ df.columns ∧ ¬ "kofam_id".toList ∈ df.columns ∧
        ¬ "ko_id".toList ∈ df.columns) →
      make_module_coverage_df df nets = Except.error koColumnErrorMsg) ∧
    ("kegg_id".toList ∈ df.columns →
      make_module_coverage_df df nets
        = Except.ok (makeModuleCoverageRows df "kegg_id".toList nets)) ∧
    (¬ "kegg_id".toList ∈ df.columns → "kofam_id".toList ∈ df.columns →
      make_module_coverage_df df nets
        = Except.ok (makeModuleCoverageRows df "kofam_id".toList nets)) ∧
    (¬ "kegg_id".toList ∈ df.columns → ¬ "kofam_id".toList ∈ df.columns →
      "ko_id".toList ∈ df.columns →
      make_module_coverage_df df nets
        = Except.ok (makeModuleCoverageRows df "ko_id".toList nets)) := by
  refine ⟨?_, ?_, ?_, ?_⟩
  · rintro ⟨h1, h2, h3⟩
    rw [make_module_coverage_df]
    have hf : findKoColumn df.columns = none := by
      rw [findKoColumn, koIdNames,
        List.find?_cons_of_neg _ (by simpa using h1),
        List.find?_cons_of_neg _ (by simpa using h2),
        List.find?_cons_of_neg _ (by simpa using h3)]
      rfl
    rw [hf]
  · intro h1
    rw [make_module_coverage_df]
    have hf : findKoColumn df.columns = some "kegg_id".toList := by
      rw [findKoColumn, koIdNames,
        List.find?_cons_of_pos _ (by simpa using h1)]
    rw [hf]
  · intro h1 h2
    rw [make_module_coverage_df]
    have hf : findKoColumn df.columns = some "kofam_id".toList := by
      rw [findKoColumn, koIdNames,
        List.find?_cons_of_neg _ (by simpa using h1),
        List.find?_cons_of_pos _ (by simpa using h2)]
    rw [hf]
  · intro h1 h2 h3
    rw [make_module_coverage_df]
    have hf : findKoColumn df.columns = some "ko_id".toList := by
      rw [findKoColumn, koIdNames,
        List.find?_cons_of_neg _ (by simpa using h1),
        List.find?_cons_of_neg _ (by simpa using h2),
        List.find?_cons_of_pos _ (by simpa using h3)]
    rw [hf]

/-- Claim C7 witness: the theorem applied to a table whose only candidate
column is kofam_id (so the second-priority name is chosen) and, in the
first conjunct, a table with no candidate column at all. -/
theorem claim_C7_witness :
    make_module_coverage_df ⟨["fasta".toList], []⟩ [] = Except.error koColumnErrorMsg ∧
    make_module_coverage_df ⟨["fasta".toList, "kofam_id".toList], []⟩ []
      = Except.ok (makeModuleCoverageRows
          ⟨["fasta".toList, "kofam_id".toList], []⟩ "kofam_id".toList []) :=
  ⟨(claim_C7 ⟨["fasta".toList], []⟩ []).1 (by refine ⟨?_, ?_, ?_⟩ <;> decide),
   (claim_C7 ⟨["fasta".toList, "kofam_id".toList], []⟩ []).2.2.1
     (by decide) (by decide)⟩

/-! ## Claim C8 -/

/-- The intersection test of one function row as an existence statement. -/
theorem presentInBin_iff (idSet : List Str) (r : FunctionRow) :
    presentInBin idSet r = true ↔ ∃ x ∈ idSet, x ∈ functionIdSet r := by
  simp only [presentInBin, listInter, ne_eq, decide_eq_true_eq, List.length_eq_zero]
  constructor
  · intro h
    rcases List.exists_mem_of_ne_nil _ h with ⟨x, hx⟩
    rcases List.mem_filter.1 hx with ⟨hx1, hx2⟩
    exact ⟨x, hx1, by simpa using hx2⟩
  · rintro ⟨x, hx1, hx2⟩ hnil
    have hmem : x ∈ idSet.filter (fun y => decide (y ∈ functionIdSet r)) :=
      List.mem_filter.2 ⟨hx1, by simpa using hx2⟩
    rw [hnil] at hmem
    simp at hmem

/-- Claim C8: the presence flag emitted by make_functional_df for a
function definition frame and a genome is true iff every row of the frame
has a nonempty intersection with the genome id set (a conjunction over the
rows, not a disjunction); the row built for the pair is in the output. -/
theorem claim_C8 (genomeIds : List (Str × List Str))
    (frames : List (Str × List FunctionRow))
    (fr : Str × List FunctionRow) (gp : Str × List Str)
    (hfr : fr ∈ frames) (hgp : gp ∈ genomeIds) :
    mkFunctionalRow fr.2 gp.1 gp.2 ∈ make_functional_df genomeIds frames ∧
    ((mkFunctionalRow fr.2 gp.1 gp.2).present = true ↔
      ∀ r ∈ fr.2, ∃ x ∈ gp.2, x ∈ functionIdSet r) := by
  constructor
  · rw [make_functional_df]
    exact List.mem_flatMap.2 ⟨fr, hfr, List.mem_map.2 ⟨gp, hgp, rfl⟩⟩
  · show (fr.2.map (fun r => presentInBin gp.2 r)).all (fun b => b) = true ↔ _
    rw [List.all_eq_true]
    constructor
    · intro h r hr
      exact (presentInBin_iff gp.2 r).1
        (h (presentInBin gp.2 r) (List.mem_map.2 ⟨r, hr, rfl⟩))
    · intro h b hb
      rcases List.mem_map.1 hb with ⟨r, hr, rfl⟩
      exact (presentInBin_iff gp.2 r).2 (h r hr)

/-- Claim C8 witness: a two-row definition frame over one genome; the
genome meets the first row but not the second, and the theorem yields the
conjunction semantics for that concrete pair. -/
theorem claim_C8_witness :
    (mkFunctionalRow
        [⟨[], [], "f".toList, "K00001".toList, [], []⟩,
         ⟨[], [], "f".toList, "K00002".toList, [], []⟩] "g1".toList
        ["K00001".toList]).present = true ↔
      ∀ r ∈ [(⟨[], [], "f".toList, "K00001".toList, [], []⟩ : FunctionRow),
        ⟨[], [], "f".toList, "K00002".toList, [], []⟩],
        ∃ x ∈ ["K00001".toList], x ∈ functionIdSet r :=
  (claim_C8 [("g1".toList, ["K00001".toList])]
    [("f".toList, [⟨[], [], "f".toList, "K00001".toList, [], []⟩,
      ⟨[], [], "f".toList, "K00002".toList, [], []⟩])]
    ("f".toList, [⟨[], [], "f".toList, "K00001".toList, [], []⟩,
      ⟨[], [], "f".toList, "K00002".toList, [], []⟩])
    ("g1".toList, ["K00001".toList])
    (List.mem_singleton.2 rfl) (List.mem_singleton.2 rfl)).2

/-! ## Lemmas about split_into_steps (claim C4) -/

theorem splitPositions_pairwise (d : Str) (seps : List Char) :
    (splitPositions d seps).Pairwise (· < ·) :=
  (List.pairwise_lt_range d.length).filter _

theorem mem_splitPositions {d : Str} {seps : List Char} {i : Nat}
    (h : i ∈ splitPositions d seps) :
    i < d.length ∧ d.getD i ' ' ∈ seps := by
  rcases List.mem_filter.1 h with ⟨hr, hp⟩
  have := of_decide_eq_true hp
  exact ⟨List.mem_range.1 hr, this.2⟩

theorem zip_slices_shift (d : Str) (k : Nat) (starts ends : List Nat)
    (hs : ∀ a ∈ starts, k ≤ a) (he : ∀ b ∈ ends, k ≤ b) :
    (starts.zip ends).map (fun ab => (d.drop ab.1).take (ab.2 - ab.1))
      = ((starts.map (· - k)).zip (ends.map (· - k))).map
          (fun ab => ((d.drop k).drop ab.1).take (ab.2 - ab.1)) := by
  induction starts generalizing ends with
  | nil => simp
  | cons a as ih =>
    cases ends with
    | nil => simp
    | cons b bs =>
      have hka : k ≤ a := hs a (List.mem_cons_self _ _)
      have hkb : k ≤ b := he b (List.mem_cons_self _ _)
      simp only [List.zip_cons_cons, List.map_cons]
      congr 1
      · rw [List.drop_drop]
        have h1 : k + (a - k) = a := by omega
        have h2 : b - k - (a - k) = b - a := by omega
        rw [h1, h2]
      · exact ih bs (fun x hx => hs x (List.mem_cons_of_mem _ hx))
          (fun x hx => he x (List.mem_cons_of_mem _ hx))

theorem sliceChunks_cons (d : Str) (i : Nat) (t : List Nat)
    (ht : ∀ j ∈ t, i < j) (hi : i < d.length) :
    sliceChunks d (i :: t)
      = d.take i :: sliceChunks (d.drop (i + 1)) (t.map (· - (i + 1))) := by
  rw [sliceChunks, sliceChunks]
  simp only [List.map_cons, List.cons_append, List.zip_cons_cons, List.map_cons,
    List.cons.injEq]
  refine ⟨by simp, ?_⟩
  have hshift := zip_slices_shift d (i + 1) ((i + 1) :: t.map (· + 1))
    (t ++ [d.length])
    (by
      intro x hx
      rcases List.mem_cons.1 hx with rfl | hx
      · exact Nat.le_refl _
      · rcases List.mem_map.1 hx with ⟨j, hj, rfl⟩
        have := ht j hj
        omega)
    (by
      intro x hx
      rcases List.mem_append.1 hx with hx | hx
      · exact ht x hx
      · rw [List.mem_singleton.1 hx]; exact hi)
  have e1 : ((i + 1) :: t.map (· + 1)).map (· - (i + 1))
      = 0 :: (t.map (· - (i + 1))).map (· + 1) := by
    simp only [List.map_cons, List.map_map, List.cons.injEq]
    refine ⟨by omega, ?_⟩
    apply List.map_congr_left
    intro j hj
    have := ht j hj
    simp only [Function.comp_apply]
    omega
  have e2 : (t ++ [d.length]).map (· - (i + 1))
      = t.map (· - (i + 1)) ++ [(d.drop (i + 1)).length] := by
    rw [List.map_append]
    simp [List.length_drop]
  rw [e1, e2] at hshift
  simp only [List.map_map, List.drop_drop, List.length_drop] at hshift
  simp only [List.map_map, List.drop_drop, List.length_drop]
  exact hshift

theorem sliceChunks_nil (d : Str) : sliceChunks d [] = [d] := by
  simp [sliceChunks]

theorem sliceChunks_ne_nil (d : Str) (ss : List Nat) : sliceChunks d ss ≠ [] := by
  cases ss with
  | nil => simp [sliceChunks_nil]
  | cons i t => simp [sliceChunks]

theorem intercalate_cons_of_ne_nil {α : Type} (s x : List α) (l : List (List α))
    (h : l ≠ []) :
    List.intercalate s (x :: l) = x ++ s ++ List.intercalate s l := by
  cases l with
  | nil => exact absurd rfl h
  | cons y t => simp [List.intercalate, List.intersperse]

theorem intercalate_sliceChunks (c : Char) (n : Nat) :
    ∀ (ss : List Nat) (d : Str), ss.length ≤ n → ss.Pairwise (· < ·) →
      (∀ i ∈ ss, i < d.length ∧ d.getD i ' ' = c) →
      List.intercalate [c] (sliceChunks d ss) = d := by
  induction n with
  | zero =>
    intro ss d hlen _ _
    have hnil : ss = [] := List.length_eq_zero.1 (Nat.le_zero.1 hlen)
    subst hnil
    rw [sliceChunks_nil]
    simp [List.intercalate]
  | succ n ih =>
    intro ss d hlen hsort hmem
    cases ss with
    | nil =>
      rw [sliceChunks_nil]
      simp [List.intercalate]
    | cons i t =>
      rcases hmem i (List.mem_cons_self _ _) with ⟨hi, hci⟩
      have ht : ∀ j ∈ t, i < j := fun j hj => List.rel_of_pairwise_cons hsort hj
      rw [sliceChunks_cons d i t ht hi,
        intercalate_cons_of_ne_nil _ _ _ (sliceChunks_ne_nil _ _)]
      rw [ih (t.map (· - (i + 1))) (d.drop (i + 1))
        (by rw [List.length_map]; exact Nat.le_of_succ_le_succ hlen)
        (by
          rw [List.pairwise_map]
          refine List.Pairwise.imp_of_mem ?_ ((List.pairwise_cons.1 hsort).2)
          intro a b ha hb hab
          have hia := ht a ha
          omega)
        (by
          intro j hj
          rcases List.mem_map.1 hj with ⟨j0, hj0, rfl⟩
          rcases hmem j0 (List.mem_cons_of_mem _ hj0) with ⟨hj1, hj2⟩
          have hij : i < j0 := ht j0 hj0
          constructor
          · rw [List.length_drop]; omega
          · rw [List.getD_eq_getElem?_getD, List.getElem?_drop,
              ← List.getD_eq_getElem?_getD]
            have harith : i + 1 + (j0 - (i + 1)) = j0 := by omega
            rw [harith]
            exact hj2)]
      have hdi : d.getD i ' ' = d[i] := List.getD_eq_getElem d ' ' hi
      have hdrop : d.drop i = d[i] :: d.drop (i + 1) :=
        List.drop_eq_getElem_cons hi
      calc d.take i ++ [c] ++ d.drop (i + 1)
          = d.take i ++ (d[i] :: d.drop (i + 1)) := by
            rw [← hci, hdi]; simp
        _ = d.take i ++ d.drop i := by rw [← hdrop]
        _ = d := List.take_append_drop i d

theorem intercalate_splitRaw (d : Str) (c : Char) :
    List.intercalate [c] (splitRawSteps d [c]) = d := by
  rw [splitRawSteps]
  refine intercalate_sliceChunks c (splitPositions d [c]).length
    (splitPositions d [c]) d (Nat.le_refl _) (splitPositions_pairwise d [c]) ?_
  intro i hi
  rcases mem_splitPositions hi with ⟨h1, h2⟩
  exact ⟨h1, List.mem_singleton.1 h2⟩

/-! ## Claim C4 -/

/-- Claim C4 counterexample: on the definition string (a,b) with the comma
separator, the single returned segment has its wrapping parentheses
stripped, the rejoined string is a,b, and reparsing it yields two segments
instead of the original one, so the claimed round trip fails. -/
theorem claim_C4_counterexample :
    split_into_steps
        (List.intercalate [','] (split_into_steps "(a,b)".toList [',']))
        [','] ≠ split_into_steps "(a,b)".toList [','] := by decide

/-- Claim C4, amended: the round trip holds whenever the first parse
strips no wrapping parentheses from any segment: joining the segments of
split_into_steps with the separator and parsing again returns the same
segment list.  (When a segment is stripped, separators or a second layer
of parentheses that the stripping exposed change the reparse, as the
counterexample shows.) -/
theorem claim_C4 (d : Str) (c : Char)
    (h : ∀ s ∈ splitRawSteps d [c], stripParens s = s) :
    split_into_steps (List.intercalate [c] (split_into_steps d [c])) [c]
      = split_into_steps d [c] := by
  have hmap : split_into_steps d [c] = splitRawSteps d [c] := by
    rw [split_into_steps]
    calc (splitRawSteps d [c]).map stripParens
        = (splitRawSteps d [c]).map id := List.map_congr_left h
      _ = splitRawSteps d [c] := List.map_id _
  rw [hmap, intercalate_splitRaw, hmap]

/-- Claim C4 witness: the amended round trip at the stripping-free
definition K00001+K00002,K00003 with the comma separator. -/
theorem claim_C4_witness :
    split_into_steps
        (List.intercalate [',']
          (split_into_steps "K00001+K00002,K00003".toList [',']))
        [','] = split_into_steps "K00001+K00002,K00003".toList [','] :=
  claim_C4 "K00001+K00002,K00003".toList ','
    (by
      have : ∀ s ∈ splitRawSteps "K00001+K00002,K00003".toList [','],
          stripParens s = s := by decide
      exact this)

/-! ## Lemmas about the stepwise coverage (claim C3) -/

theorem listInter_nil (a : List Str) : listInter a [] = [] := by
  simp [listInter]

theorem foldl_max_init_le (l : List Nat) (a : Nat) :
    a ≤ l.foldl Nat.max a := by
  induction l generalizing a with
  | nil => exact Nat.le_refl a
  | cons y t ih =>
    exact Nat.le_trans (Nat.le_max_left a y) (ih (Nat.max a y))

theorem le_foldl_max (l : List Nat) (a x : Nat) (hx : x ∈ l) :
    x ≤ l.foldl Nat.max a := by
  induction l generalizing a with
  | nil => cases hx
  | cons y t ih =>
    rcases List.mem_cons.1 hx with rfl | hx
    · exact Nat.le_trans (Nat.le_max_right a x) (foldl_max_init_le t (Nat.max a x))
    · exact ih (Nat.max a y) hx

theorem survivingPaths_nil (net : StepNet) : survivingPaths [] net = [] := by
  rw [survivingPaths, List.filter_eq_nil_iff]
  intro pn _
  simp [listInter_nil]

theorem survivesPruning_path_nil (net : StepNet) (s a : Nat) :
    survivesPruning [] net (StepNode.path s a) = false := by
  simp [survivesPruning, survivingPaths_nil]

theorem stepEdges_form (rows : List StepRow) (e : StepNode × StepNode)
    (he : e ∈ (build_module_net rows).stepEdges) :
    (∃ x y z, e = (StepNode.endStep x, StepNode.path y z)) ∨
      (∃ y z x, e = (StepNode.path y z, StepNode.endStep x)) := by
  simp only [build_module_net] at he
  rcases List.mem_flatMap.1 he with ⟨p, -, hmem⟩
  by_cases h0 : p.1 ≠ 0
  · rw [if_pos h0] at hmem
    rcases List.mem_cons.1 hmem with rfl | hmem
    · exact Or.inl ⟨p.1 - 1, p.1, p.2, rfl⟩
    · rw [List.mem_singleton.1 hmem]
      exact Or.inr ⟨p.1, p.2, p.1, rfl⟩
  · rw [if_neg h0] at hmem
    rw [List.nil_append] at hmem
    rw [List.mem_singleton.1 hmem]
    exact Or.inr ⟨p.1, p.2, p.1, rfl⟩

theorem prunedInDegree_endStep_nil (rows : List StepRow) (s : Nat) :
    prunedInDegree [] (build_module_net rows) (StepNode.endStep s) = 0 := by
  rw [prunedInDegree, List.length_eq_zero, List.filter_eq_nil_iff]
  intro e he
  rcases stepEdges_form rows e he with ⟨x, y, z, rfl⟩ | ⟨y, z, x, rfl⟩
  · simp
  · simp [survivesPruning_path_nil]

theorem mem_stepNodesList_endStep (rows : List StepRow) (s : Nat) :
    StepNode.endStep s ∈ (build_module_net rows).stepNodesList ↔
      ((∃ r ∈ rows, r.1.1 = s) ∨ (∃ r ∈ rows, r.1.1 = s + 1)) := by
  simp only [build_module_net]
  rw [mem_uniqueFirst, List.mem_flatMap]
  constructor
  · rintro ⟨p, hp, hmem⟩
    rw [mem_uniqueFirst] at hp
    rcases List.mem_map.1 hp with ⟨r, hr, rfl⟩
    by_cases h0 : r.1.1 = 0
    · rw [if_neg (by simp [h0])] at hmem
      simp at hmem
      exact Or.inl ⟨r, hr, hmem.symm⟩
    · rw [if_pos h0] at hmem
      simp at hmem
      rcases hmem with hmem | hmem
      · exact Or.inr ⟨r, hr, by omega⟩
      · exact Or.inl ⟨r, hr, hmem.symm⟩
  · intro h
    rcases h with ⟨r, hr, hs⟩ | ⟨r, hr, hs⟩
    · refine ⟨r.1, (mem_uniqueFirst _ _).2 (List.mem_map.2 ⟨r, hr, rfl⟩), ?_⟩
      subst hs
      by_cases h0 : r.1.1 = 0
      · rw [if_neg (by simp [h0])]
        simp
      · rw [if_pos h0]
        simp
    · refine ⟨r.1, (mem_uniqueFirst _ _).2 (List.mem_map.2 ⟨r, hr, rfl⟩), ?_⟩
      have h0 : r.1.1 ≠ 0 := by omega
      rw [if_pos h0]
      have hs1 : r.1.1 - 1 = s := by omega
      simp [hs1]

theorem foldl_kos_empty (l : List ((Nat × Nat) × List Str)) (acc : List Str) :
    l.foldl
      (fun acc pn =>
        if (listInter pn.2 []).length ≠ 0 then listUnion acc (listInter pn.2 [])
        else acc) acc = acc := by
  induction l generalizing acc with
  | nil => rfl
  | cons pn t ih =>
    rw [List.foldl_cons, listInter_nil]
    simp only [List.length_nil, ne_eq, not_true_eq_false, if_false]
    exact ih acc

theorem endStep_injective : Function.Injective StepNode.endStep := by
  intro a b h
  injection h

theorem missing_steps_empty (rows : List StepRow)
    (hcov : ∀ i, i ≤ (rows.map (fun r => r.1.1)).foldl Nat.max 0 →
      (∃ r ∈ rows, r.1.1 = i) ∨ (∃ r ∈ rows, r.1.1 = i + 1)) :
    (((build_module_net rows).stepNodesList.filter
        (fun n => survivesPruning [] (build_module_net rows) n)).filter
      (fun n => n.isEndStep ∧
        prunedInDegree [] (build_module_net rows) n = 0)).length
      = (rows.map (fun r => r.1.1)).foldl Nat.max 0 + 1 := by
  set M := (rows.map (fun r => r.1.1)).foldl Nat.max 0 with hM
  rw [List.filter_filter]
  have hcongr : ((build_module_net rows).stepNodesList.filter
      (fun n => decide (n.isEndStep = true ∧
        prunedInDegree [] (build_module_net rows) n = 0)
        && survivesPruning [] (build_module_net rows) n))
      = (build_module_net rows).stepNodesList.filter (fun n => n.isEndStep) := by
    apply List.filter_congr
    intro n _
    cases n with
    | path s a =>
      simp [survivesPruning_path_nil, StepNode.isEndStep]
    | endStep s =>
      simp [survivesPruning, StepNode.isEndStep, prunedInDegree_endStep_nil]
  rw [hcongr]
  have hnodup : ((build_module_net rows).stepNodesList.filter
      (fun n => n.isEndStep)).Nodup := by
    apply List.Nodup.filter
    simp only [build_module_net]
    exact nodup_uniqueFirst _
  rw [← List.toFinset_card_of_nodup hnodup]
  have hset : ((build_module_net rows).stepNodesList.filter
      (fun n => n.isEndStep)).toFinset
      = (Finset.range (M + 1)).image StepNode.endStep := by
    apply Finset.ext
    intro n
    rw [List.mem_toFinset, List.mem_filter, Finset.mem_image]
    constructor
    · rintro ⟨hmem, hend⟩
      cases n with
      | path s a => simp [StepNode.isEndStep] at hend
      | endStep s =>
        refine ⟨s, ?_, rfl⟩
        rw [Finset.mem_range]
        rcases (mem_stepNodesList_endStep rows s).1 hmem with ⟨r, hr, hs⟩ | ⟨r, hr, hs⟩
        · have := le_foldl_max (rows.map (fun r => r.1.1)) 0 r.1.1
            (List.mem_map.2 ⟨r, hr, rfl⟩)
          omega
        · have := le_foldl_max (rows.map (fun r => r.1.1)) 0 r.1.1
            (List.mem_map.2 ⟨r, hr, rfl⟩)
          omega
    · rintro ⟨s, hs, rfl⟩
      rw [Finset.mem_range] at hs
      refine ⟨?_, by simp [StepNode.isEndStep]⟩
      rw [mem_stepNodesList_endStep rows s]
      exact hcov s (by omega)
  rw [hset, Finset.card_image_of_injective _ endStep_injective,
    Finset.card_range]

/-! ## Claim C3 -/

/-- Claim C3 counterexample: a step table with step numbers 0 and 3 only.
The incoming-edge construction creates end_step_2 but no end_step_1 node,
so only three end_step nodes exist while num_steps+1 is 4; against the
empty observed set the coverage is therefore (4, 1, 1/4, []), with
steps_present 1 and coverage nonzero, refuting the claim for step tables
whose step numbers are not contiguous. -/
theorem claim_C3_counterexample :
    get_module_step_coverage []
        (build_module_net [((0, 0), "K00001".toList), ((3, 0), "K00002".toList)])
      = (4, 1, mkRat 1 4, []) ∧
    ¬ (get_module_step_coverage []
        (build_module_net [((0, 0), "K00001".toList), ((3, 0), "K00002".toList)])).2.1
      = 0 := by
  constructor
  · decide
  · decide

/-- Claim C3, amended: for every nonempty module step table whose step
numbers leave no gap of two or more (every number up to the maximum step
is a step or the predecessor of a step; contiguous tables in particular),
building the stepwise graph and evaluating it against the empty observed
set yields steps_present = 0 and coverage_fraction = 0. -/
theorem claim_C3 (rows : List StepRow)
    (hcov : ∀ i, i ≤ (rows.map (fun r => r.1.1)).foldl Nat.max 0 →
      (∃ r ∈ rows, r.1.1 = i) ∨ (∃ r ∈ rows, r.1.1 = i + 1)) :
    get_module_step_coverage [] (build_module_net rows)
      = ((rows.map (fun r => r.1.1)).foldl Nat.max 0 + 1, 0, 0, []) := by
  rw [get_module_step_coverage]
  have hkos : (build_module_net rows).pathNodes.foldl
      (fun acc pn =>
        if (listInter pn.2 []).length ≠ 0 then listUnion acc (listInter pn.2 [])
        else acc) [] = [] := foldl_kos_empty _ _
  have hmiss := missing_steps_empty rows hcov
  have hnum : (build_module_net rows).numSteps
      = (rows.map (fun r => r.1.1)).foldl Nat.max 0 := by
    simp [build_module_net]
  rw [hkos, hmiss, hnum]
  have hsub : (rows.map (fun r => r.1.1)).foldl Nat.max 0 + 1
      - ((rows.map (fun r => r.1.1)).foldl Nat.max 0 + 1) = 0 := by omega
  rw [hsub]
  simp [strSort]

/-- Claim C3 witness: the amended theorem at a concrete contiguous table
with steps 0 and 1. -/
theorem claim_C3_witness :
    get_module_step_coverage []
        (build_module_net [((0, 0), "K00001".toList), ((1, 0), "K00002".toList)])
      = (2, 0, 0, []) := by
  have h := claim_C3 [((0, 0), "K00001".toList), ((1, 0), "K00002".toList)]
    (by
      have : ∀ i, i ≤ 1 →
          (∃ r ∈ [((0, 0), "K00001".toList), ((1, 0), "K00002".toList)], r.1.1 = i)
          ∨ (∃ r ∈ [((0, 0), "K00001".toList), ((1, 0), "K00002".toList)],
              r.1.1 = i + 1) := by decide
      simpa using this)
  simpa using h

/-! ## Length lemmas for the recursive descent (claims C10 and C6) -/

theorem sliceChunks_mem_length (n : Nat) :
    ∀ (ss : List Nat) (d s : Str), ss.length ≤ n → ss.Pairwise (· < ·) →
      (∀ i ∈ ss, i < d.length) → s ∈ sliceChunks d ss →
      (ss = [] ∧ s = d) ∨ s.length < d.length := by
  induction n with
  | zero =>
    intro ss d s hlen _ _ hs
    have hnil : ss = [] := List.length_eq_zero.1 (Nat.le_zero.1 hlen)
    subst hnil
    rw [sliceChunks_nil] at hs
    exact Or.inl ⟨rfl, List.mem_singleton.1 hs⟩
  | succ n ih =>
    intro ss d s hlen hsort hbound hs
    cases ss with
    | nil =>
      rw [sliceChunks_nil] at hs
      exact Or.inl ⟨rfl, List.mem_singleton.1 hs⟩
    | cons i t =>
      have hi : i < d.length := hbound i (List.mem_cons_self _ _)
      have ht : ∀ j ∈ t, i < j := fun j hj => List.rel_of_pairwise_cons hsort hj
      rw [sliceChunks_cons d i t ht hi] at hs
      rcases List.mem_cons.1 hs with rfl | hs
      · right
        rw [List.length_take]
        omega
      · right
        have := ih (t.map (· - (i + 1))) (d.drop (i + 1)) s
          (by rw [List.length_map]; exact Nat.le_of_succ_le_succ hlen)
          (by
            rw [List.pairwise_map]
            refine List.Pairwise.imp_of_mem ?_ ((List.pairwise_cons.1 hsort).2)
            intro a b ha hb hab
            have := ht a ha
            omega)
          (by
            intro j hj
            rcases List.mem_map.1 hj with ⟨j0, hj0, rfl⟩
            have h1 := hbound j0 (List.mem_cons_of_mem _ hj0)
            have h2 := ht j0 hj0
            rw [List.length_drop]
            omega)
          hs
        rcases this with ⟨-, rfl⟩ | hlt
        · rw [List.length_drop]
          omega
        · rw [List.length_drop] at hlt
          omega

theorem stripParens_length (s : Str) :
    stripParens s = s ∨ (stripParens s).length < s.length := by
  rw [stripParens]
  by_cases h : s.head? = some '(' ∧ s.getLast? = some ')' ∧
      first_open_paren_is_all s = true
  · rw [if_pos h]
    right
    have hne : s ≠ [] := by
      intro heq
      rw [heq] at h
      simp at h
    have hlen : 1 ≤ s.length := List.length_pos.2 hne
    rw [List.length_dropLast, List.length_drop]
    omega
  · rw [if_neg h]
    exact Or.inl rfl

theorem split_into_steps_cases (d : Str) (seps : List Char) :
    split_into_steps d seps = [d] ∨
      ∀ s ∈ split_into_steps d seps, s.length < d.length := by
  rw [split_into_steps, splitRawSteps]
  rcases hss : splitPositions d seps with _ | ⟨i, t⟩
  · rw [sliceChunks_nil]
    rcases stripParens_length d with heq | hlt
    · left
      rw [List.map_singleton, heq]
    · right
      intro s hs
      rw [List.map_singleton, List.mem_singleton] at hs
      rw [hs]
      exact hlt
  · right
    intro s hs
    rcases List.mem_map.1 hs with ⟨raw, hraw, rfl⟩
    have hbound : ∀ j ∈ splitPositions d seps, j < d.length :=
      fun j hj => (mem_splitPositions hj).1
    rw [hss] at hbound
    have := sliceChunks_mem_length (i :: t).length (i :: t) d raw
      (Nat.le_refl _) (hss ▸ splitPositions_pairwise d seps) hbound hraw
    rcases this with ⟨heq, -⟩ | hlt
    · cases heq
    · rcases stripParens_length raw with heq | hlt2
      · rw [heq]; exact hlt
      · omega

theorem split_into_steps_length_le (d : Str) (seps : List Char) :
    ∀ s ∈ split_into_steps d seps, s.length ≤ d.length := by
  intro s hs
  rcases split_into_steps_cases d seps with heq | hlt
  · rw [heq, List.mem_singleton] at hs
    rw [hs]
  · exact Nat.le_of_lt (hlt s hs)

theorem subsOf_cases (d : Str) :
    subsOf d = [d] ∨ ∀ s ∈ subsOf d, s.length < d.length := by
  rw [subsOf]
  rcases split_into_steps_cases d [','] with heq | hlt
  · rw [heq]
    rcases split_into_steps_cases d ['+'] with heq2 | hlt2
    · left
      simp [heq2]
    · right
      intro s hs
      simp only [List.flatMap_cons, List.flatMap_nil, List.append_nil] at hs
      exact hlt2 s hs
  · right
    intro s hs
    rcases List.mem_flatMap.1 hs with ⟨step, hstep, hsub⟩
    have h1 := hlt step hstep
    have h2 := split_into_steps_length_le step ['+'] s hsub
    omega

/-! ## Splitting a bare identifier token -/

theorem isDigit_ne_seps (c : Char) (h : c.isDigit = true) :
    c ≠ ',' ∧ c ≠ '+' := by
  constructor <;> · rintro rfl; exact absurd h (by decide)

theorem ko_chars (d : Str) (h : is_ko d = true) :
    ∀ c ∈ d, c = 'K' ∨ c.isDigit = true ∨ c = '\n' := by
  rcases (is_ko_iff d).1 h with hspec | ⟨core, rfl, hspec⟩
  · cases d with
    | nil => simp [is_gene_identifier_spec] at hspec
    | cons c0 rest =>
      simp only [is_gene_identifier_spec, Bool.and_eq_true, decide_eq_true_eq,
        List.all_eq_true] at hspec
      intro c hc
      rcases List.mem_cons.1 hc with rfl | hc
      · exact Or.inl hspec.1.1
      · exact Or.inr (Or.inl (hspec.2 c hc))
  · cases core with
    | nil => simp [is_gene_identifier_spec] at hspec
    | cons c0 rest =>
      simp only [is_gene_identifier_spec, Bool.and_eq_true, decide_eq_true_eq,
        List.all_eq_true] at hspec
      intro c hc
      rw [List.mem_append] at hc
      rcases hc with hc | hc
      · rcases List.mem_cons.1 hc with rfl | hc
        · exact Or.inl hspec.1.1
        · exact Or.inr (Or.inl (hspec.2 c hc))
      · exact Or.inr (Or.inr (List.mem_singleton.1 hc))

theorem ko_split_self (d : Str) (h : is_ko d = true) (c : Char)
    (hc : c = ',' ∨ c = '+') :
    split_into_steps d [c] = [d] := by
  have hchar : ∀ x ∈ d, x ≠ c := by
    intro x hx
    rcases ko_chars d h x hx with rfl | hdig | rfl
    · rcases hc with rfl | rfl <;> decide
    · rcases hc with rfl | rfl
      · exact (isDigit_ne_seps x hdig).1
      · exact (isDigit_ne_seps x hdig).2
    · rcases hc with rfl | rfl <;> decide
  have hpos : splitPositions d [c] = [] := by
    rw [splitPositions, List.filter_eq_nil_iff]
    intro i hi
    rw [List.mem_range] at hi
    intro hp
    have hp2 := (of_decide_eq_true hp).2
    rw [List.mem_singleton] at hp2
    have hmem : d.getD i ' ' ∈ d := by
      rw [List.getD_eq_getElem d ' ' hi]
      exact List.getElem_mem hi
    exact hchar _ hmem hp2
  rw [split_into_steps, splitRawSteps, hpos, sliceChunks_nil]
  have hK : d.head? = some 'K' := by
    cases d with
    | nil => simp [is_ko] at h
    | cons c0 rest =>
      simp only [is_ko, Bool.and_eq_true, decide_eq_true_eq] at h
      rw [h.1]
      rfl
  have hstrip : stripParens d = d := by
    rw [stripParens, if_neg]
    rintro ⟨h1, -⟩
    rw [hK] at h1
    cases h1
  rw [List.map_singleton, hstrip]

/-! ## Fuel monotonicity and totality of make_module_network -/

theorem option_bind_some {α β : Type} (a : α) (f : α → Option β) :
    (some a).bind f = f a := rfl

theorem mmnSubsteps_congr
    (rec rec2 : Str → DiGraph → List Str → Option (DiGraph × List Str))
    (hrec : ∀ x n p r, rec x n p = some r → rec2 x n p = some r) :
    ∀ (l : List Str) (net : DiGraph) (prev : List Str) (r : DiGraph × List Str),
      mmnSubsteps rec l net prev = some r → mmnSubsteps rec2 l net prev = some r := by
  intro l
  induction l with
  | nil => intro net prev r h; exact h
  | cons sub rest ih =>
    intro net prev r h
    rw [mmnSubsteps] at h
    rw [mmnSubsteps]
    by_cases hko : is_ko sub = true
    · rw [if_pos hko] at h
      rw [if_pos hko]
      exact ih _ _ _ h
    · rw [if_neg hko] at h
      rw [if_neg hko]
      rcases hrc : rec sub net prev with - | r1
      · rw [hrc] at h
        cases h
      · rw [hrc] at h
        rw [option_bind_some] at h
        rw [hrec _ _ _ _ hrc, option_bind_some]
        exact ih _ _ _ h

theorem mmnSteps_congr
    (rec rec2 : Str → DiGraph → List Str → Option (DiGraph × List Str))
    (hrec : ∀ x n p r, rec x n p = some r → rec2 x n p = some r) :
    ∀ (l : List Str) (net : DiGraph) (parents : List Str) (r : DiGraph × List Str),
      mmnSteps rec l net parents = some r → mmnSteps rec2 l net parents = some r := by
  intro l
  induction l with
  | nil => intro net parents r h; exact h
  | cons step rest ih =>
    intro net parents r h
    rw [mmnSteps] at h
    rw [mmnSteps]
    rcases h1 : mmnSubsteps rec (split_into_steps step ['+']) net parents with - | r1
    · rw [h1] at h
      cases h
    · rw [h1] at h
      rw [option_bind_some] at h
      rw [mmnSubsteps_congr rec rec2 hrec _ _ _ _ h1, option_bind_some]
      rcases h2 : mmnSteps rec rest r1.1 parents with - | r2
      · rw [h2] at h
        cases h
      · rw [h2] at h
        rw [option_bind_some] at h
        rw [ih _ _ _ h2, option_bind_some]
        exact h

theorem make_module_network_mono (f : Nat) :
    ∀ (d : Str) (net : DiGraph) (ps : List Str) (r : DiGraph × List Str),
      make_module_network f d net ps = some r →
      make_module_network (f + 1) d net ps = some r := by
  induction f with
  | zero => intro d net ps r h; cases h
  | succ f ih =>
    intro d net ps r h
    rw [make_module_network] at h
    rw [make_module_network]
    exact mmnSteps_congr _ _ (fun x n p r2 h2 => ih x n p r2 h2) _ _ _ _ h

theorem make_module_network_mono_le (f f2 : Nat) (hle : f ≤ f2) :
    ∀ (d : Str) (net : DiGraph) (ps : List Str) (r : DiGraph × List Str),
      make_module_network f d net ps = some r →
      make_module_network f2 d net ps = some r := by
  induction f2 with
  | zero =>
    intro d net ps r h
    have : f = 0 := Nat.le_zero.1 hle
    rw [← this]
    exact h
  | succ f2 ih =>
    intro d net ps r h
    rcases Nat.lt_or_ge f (f2 + 1) with hlt | hge
    · exact make_module_network_mono f2 d net ps r
        (ih (Nat.le_of_lt_succ hlt) d net ps r h)
    · have : f = f2 + 1 := Nat.le_antisymm hle hge
      rw [← this]
      exact h

theorem mmn_ko_total (d : Str) (h : is_ko d = true) (net : DiGraph)
    (ps : List Str) :
    make_module_network 1 d net ps
      = some (addKoEdges net ps d, [d] ++ []) := by
  rw [make_module_network, ko_split_self d h ',' (Or.inl rfl), mmnSteps,
    ko_split_self d h '+' (Or.inr rfl), mmnSubsteps, if_pos h, mmnSubsteps,
    option_bind_some, mmnSteps, option_bind_some]

theorem mmnSubsteps_total (l : List Str)
    (hl : ∀ sub ∈ l, is_ko sub = true ∨
      ∀ (n : DiGraph) (p : List Str), ∃ f,
        (make_module_network f sub n p).isSome = true) :
    ∀ (net : DiGraph) (prev : List Str), ∃ F,
      (mmnSubsteps (make_module_network F) l net prev).isSome = true := by
  induction l with
  | nil =>
    intro net prev
    exact ⟨0, rfl⟩
  | cons sub rest ih =>
    intro net prev
    have hrest : ∀ s ∈ rest, is_ko s = true ∨
        ∀ (n : DiGraph) (p : List Str), ∃ f,
          (make_module_network f s n p).isSome = true :=
      fun s hs => hl s (List.mem_cons_of_mem _ hs)
    by_cases hko : is_ko sub = true
    · rcases ih hrest (addKoEdges net prev sub) [sub] with ⟨F, hF⟩
      refine ⟨F, ?_⟩
      rw [mmnSubsteps, if_pos hko]
      exact hF
    · have htot := (hl sub (List.mem_cons_self _ _)).resolve_left hko
      rcases htot net prev with ⟨f1, hf1⟩
      rcases Option.isSome_iff_exists.1 hf1 with ⟨r1, hr1⟩
      rcases ih hrest r1.1 r1.2 with ⟨f2, hf2⟩
      rcases Option.isSome_iff_exists.1 hf2 with ⟨r2, hr2⟩
      refine ⟨Nat.max f1 f2, ?_⟩
      rw [mmnSubsteps, if_neg hko,
        make_module_network_mono_le f1 (Nat.max f1 f2) (Nat.le_max_left _ _)
          _ _ _ _ hr1,
        option_bind_some,
        mmnSubsteps_congr (make_module_network f2) (make_module_network (Nat.max f1 f2))
          (fun x n p r h => make_module_network_mono_le f2 (Nat.max f1 f2)
            (Nat.le_max_right _ _) x n p r h)
          _ _ _ _ hr2]
      rfl

theorem mmnSteps_total (l : List Str)
    (hl : ∀ step ∈ l, ∀ sub ∈ split_into_steps step ['+'], is_ko sub = true ∨
      ∀ (n : DiGraph) (p : List Str), ∃ f,
        (make_module_network f sub n p).isSome = true) :
    ∀ (net : DiGraph) (parents : List Str), ∃ F,
      (mmnSteps (make_module_network F) l net parents).isSome = true := by
  induction l with
  | nil =>
    intro net parents
    exact ⟨0, rfl⟩
  | cons step rest ih =>
    intro net parents
    rcases mmnSubsteps_total (split_into_steps step ['+'])
      (hl step (List.mem_cons_self _ _)) net parents with ⟨f1, hf1⟩
    rcases Option.isSome_iff_exists.1 hf1 with ⟨r1, hr1⟩
    rcases ih (fun st hst => hl st (List.mem_cons_of_mem _ hst)) r1.1 parents
      with ⟨f2, hf2⟩
    rcases Option.isSome_iff_exists.1 hf2 with ⟨r2, hr2⟩
    refine ⟨Nat.max f1 f2, ?_⟩
    have hmono : ∀ x n p r, make_module_network f1 x n p = some r →
        make_module_network (Nat.max f1 f2) x n p = some r :=
      fun x n p r h => make_module_network_mono_le f1 (Nat.max f1 f2)
        (Nat.le_max_left _ _) x n p r h
    have hmono2 : ∀ x n p r, make_module_network f2 x n p = some r →
        make_module_network (Nat.max f1 f2) x n p = some r :=
      fun x n p r h => make_module_network_mono_le f2 (Nat.max f1 f2)
        (Nat.le_max_right _ _) x n p r h
    rw [mmnSteps,
      mmnSubsteps_congr (make_module_network f1) (make_module_network (Nat.max f1 f2))
        hmono _ _ _ _ hr1,
      option_bind_some,
      mmnSteps_congr (make_module_network f2) (make_module_network (Nat.max f1 f2))
        hmono2 _ _ _ _ hr2,
      option_bind_some]
    rfl

theorem make_module_network_total (n : Nat) :
    ∀ (d : Str), d.length ≤ n → (∃ f, atoms_ok f d = true) →
      ∀ (net : DiGraph) (ps : List Str), ∃ F,
        (make_module_network F d net ps).isSome = true := by
  induction n with
  | zero =>
    intro d hlen hok net ps
    rcases hok with ⟨f, hf⟩
    cases f with
    | zero => cases hf
    | succ f =>
      rw [atoms_ok] at hf
      by_cases hko : is_ko d = true
      · exact ⟨1, by rw [mmn_ko_total d hko net ps]; rfl⟩
      · rw [if_neg hko] at hf
        have hd : d = [] := List.length_eq_zero.1 (Nat.le_zero.1 hlen)
        subst hd
        have : subsOf [] = [[]] := by decide
        rw [if_pos this] at hf
        cases hf
  | succ n ih =>
    intro d hlen hok net ps
    rcases hok with ⟨f, hf⟩
    cases f with
    | zero => cases hf
    | succ f =>
      rw [atoms_ok] at hf
      by_cases hko : is_ko d = true
      · exact ⟨1, by rw [mmn_ko_total d hko net ps]; rfl⟩
      · rw [if_neg hko] at hf
        by_cases hself : subsOf d = [d]
        · rw [if_pos hself] at hf
          cases hf
        · rw [if_neg hself] at hf
          rw [List.all_eq_true] at hf
          have hshort : ∀ s ∈ subsOf d, s.length < d.length :=
            (subsOf_cases d).resolve_left hself
          have hsteps : ∀ step ∈ split_into_steps d [','],
              ∀ sub ∈ split_into_steps step ['+'], is_ko sub = true ∨
              ∀ (nn : DiGraph) (pp : List Str), ∃ ff,
                (make_module_network ff sub nn pp).isSome = true := by
            intro step hstep sub hsub
            by_cases hk : is_ko sub = true
            · exact Or.inl hk
            · right
              intro nn pp
              have hmem : sub ∈ subsOf d := by
                rw [subsOf]
                exact List.mem_flatMap.2 ⟨step, hstep, hsub⟩
              have h1 := hshort sub hmem
              have h2 := hf sub hmem
              exact ih sub (by omega) ⟨f, h2⟩ nn pp
          rcases mmnSteps_total (split_into_steps d [',']) hsteps net ps
            with ⟨F, hF⟩
          refine ⟨F + 1, ?_⟩
          rw [make_module_network]
          exact hF

theorem mmn_G00001_diverges :
    ∀ (fuel : Nat) (net : DiGraph) (ps : List Str),
      make_module_network fuel "G00001".toList net ps = none := by
  intro fuel
  induction fuel with
  | zero => intro net ps; rfl
  | succ f ih =>
    intro net ps
    rw [make_module_network]
    have hsplit1 : split_into_steps "G00001".toList [','] = ["G00001".toList] := by
      decide
    have hsplit2 : split_into_steps "G00001".toList ['+'] = ["G00001".toList] := by
      decide
    have hko : is_ko "G00001".toList = false := by decide
    rw [hsplit1, mmnSteps, hsplit2, mmnSubsteps, hko]
    simp only [Bool.false_eq_true, if_false]
    rw [ih net ps]
    rfl

/-! ## Claim C10 -/

/-- Claim C10: make_module_network terminates on every definition whose
atomic tokens (obtained by repeatedly splitting on commas and pluses at
depth zero and stripping fully wrapping parentheses) are all gene
identifiers, expressed here as success of the embedded recursion for some
fuel; and without that precondition the single non-identifier token
G00001 makes the function recurse forever on an unchanged substring,
expressed as failure at every fuel. -/
theorem claim_C10 :
    (∀ d : Str, (∃ f, atoms_ok f d = true) →
      ∀ (net : DiGraph) (ps : List Str), ∃ F,
        (make_module_network F d net ps).isSome = true) ∧
    (∀ (fuel : Nat) (net : DiGraph) (ps : List Str),
      make_module_network fuel "G00001".toList net ps = none) :=
  ⟨fun d hok net ps => make_module_network_total d.length d (Nat.le_refl _) hok net ps,
   mmn_G00001_diverges⟩

/-- Claim C10 witness: the positive half applied to the identifier-only
definition K00001+K00002, whose token check succeeds with fuel 2, and the
negative half applied at fuel 5. -/
theorem claim_C10_witness :
    (∃ F, (make_module_network F "K00001+K00002".toList ⟨[]⟩ [startS]).isSome
      = true) ∧
    make_module_network 5 "G00001".toList ⟨[]⟩ [startS] = none :=
  ⟨claim_C10.1 "K00001+K00002".toList ⟨2, by decide⟩ ⟨[]⟩ [startS],
   claim_C10.2 5 ⟨[]⟩ [startS]⟩

/-! ## Edge lemmas for make_module_network (claim C6) -/

theorem addEdge_subset (g : DiGraph) (u v : Str) (e : Str × Str)
    (he : e ∈ g.edges) : e ∈ (addEdge g u v).edges := by
  rw [addEdge]
  by_cases h : (u, v) ∈ g.edges
  · rw [if_pos h]; exact he
  · rw [if_neg h]; exact List.mem_append_left _ he

theorem addEdge_mem_self (g : DiGraph) (u v : Str) :
    (u, v) ∈ (addEdge g u v).edges := by
  rw [addEdge]
  by_cases h : (u, v) ∈ g.edges
  · rw [if_pos h]; exact h
  · rw [if_neg h]; exact List.mem_append_right _ (List.mem_singleton.2 rfl)

theorem addEdge_closure (g : DiGraph) (u v : Str) (e : Str × Str)
    (he : e ∈ (addEdge g u v).edges) : e ∈ g.edges ∨ e = (u, v) := by
  rw [addEdge] at he
  by_cases h : (u, v) ∈ g.edges
  · rw [if_pos h] at he; exact Or.inl he
  · rw [if_neg h] at he
    rcases List.mem_append.1 he with he | he
    · exact Or.inl he
    · exact Or.inr (List.mem_singleton.1 he)

theorem addKoEdges_subset (prev : List Str) (net : DiGraph) (sub : Str)
    (e : Str × Str) (he : e ∈ net.edges) : e ∈ (addKoEdges net prev sub).edges := by
  induction prev generalizing net with
  | nil => exact he
  | cons q rest ih =>
    rw [addKoEdges] at *
    exact ih (addEdge net q sub) (addEdge_subset net q sub e he)

theorem addKoEdges_mem (prev : List Str) (net : DiGraph) (sub q : Str)
    (hq : q ∈ prev) : (q, sub) ∈ (addKoEdges net prev sub).edges := by
  induction prev generalizing net with
  | nil => cases hq
  | cons q0 rest ih =>
    rw [addKoEdges]
    rcases List.mem_cons.1 hq with rfl | hq
    · exact addKoEdges_subset rest (addEdge net q sub) sub (q, sub)
        (addEdge_mem_self net q sub)
    · exact ih (addEdge net q0 sub) hq

theorem mmnSubsteps_edges_mono
    (rec : Str → DiGraph → List Str → Option (DiGraph × List Str))
    (hrec : ∀ x n p r, rec x n p = some r → ∀ e ∈ n.edges, e ∈ r.1.edges) :
    ∀ (l : List Str) (net : DiGraph) (prev : List Str) (r : DiGraph × List Str),
      mmnSubsteps rec l net prev = some r → ∀ e ∈ net.edges, e ∈ r.1.edges := by
  intro l
  induction l with
  | nil =>
    intro net prev r h e he
    injection h with h2
    rw [← h2]
    exact he
  | cons sub rest ih =>
    intro net prev r h e he
    rw [mmnSubsteps] at h
    by_cases hko : is_ko sub = true
    · rw [if_pos hko] at h
      exact ih _ _ _ h e (addKoEdges_subset prev net sub e he)
    · rw [if_neg hko] at h
      rcases hrc : rec sub net prev with - | r1
      · rw [hrc] at h; cases h
      · rw [hrc, option_bind_some] at h
        exact ih _ _ _ h e (hrec _ _ _ _ hrc e he)

theorem mmnSteps_edges_mono
    (rec : Str → DiGraph → List Str → Option (DiGraph × List Str))
    (hrec : ∀ x n p r, rec x n p = some r → ∀ e ∈ n.edges, e ∈ r.1.edges) :
    ∀ (l : List Str) (net : DiGraph) (parents : List Str) (r : DiGraph × List Str),
      mmnSteps rec l net parents = some r → ∀ e ∈ net.edges, e ∈ r.1.edges := by
  intro l
  induction l with
  | nil =>
    intro net parents r h e he
    injection h with h2
    rw [← h2]
    exact he
  | cons step rest ih =>
    intro net parents r h e he
    rw [mmnSteps] at h
    rcases h1 : mmnSubsteps rec (split_into_steps step ['+']) net parents with - | r1
    · rw [h1] at h; cases h
    · rw [h1, option_bind_some] at h
      rcases h2 : mmnSteps rec rest r1.1 parents with - | r2
      · rw [h2] at h; cases h
      · rw [h2, option_bind_some] at h
        injection h with h3
        rw [← h3]
        exact ih _ _ _ h2 e
          (mmnSubsteps_edges_mono rec hrec _ _ _ _ h1 e he)

theorem make_module_network_edges_mono (f : Nat) :
    ∀ (d : Str) (net : DiGraph) (ps : List Str) (r : DiGraph × List Str),
      make_module_network f d net ps = some r → ∀ e ∈ net.edges, e ∈ r.1.edges := by
  induction f with
  | zero => intro d net ps r h; cases h
  | succ f ih =>
    intro d net ps r h
    rw [make_module_network] at h
    exact mmnSteps_edges_mono _ (fun x n p r2 h2 => ih x n p r2 h2) _ _ _ _ h

theorem split_into_steps_ne_nil (d : Str) (seps : List Char) :
    split_into_steps d seps ≠ [] := by
  rw [split_into_steps, splitRawSteps]
  intro h
  exact sliceChunks_ne_nil d (splitPositions d seps) (List.map_eq_nil_iff.1 h)

theorem mmnSubsteps_parent_edge
    (rec : Str → DiGraph → List Str → Option (DiGraph × List Str))
    (hrecm : ∀ x n p r, rec x n p = some r → ∀ e ∈ n.edges, e ∈ r.1.edges)
    (hrecs : ∀ x n p r, rec x n p = some r →
      ∀ q ∈ p, ∃ k, (q, k) ∈ r.1.edges) :
    ∀ (l : List Str) (net : DiGraph) (prev : List Str) (r : DiGraph × List Str),
      mmnSubsteps rec l net prev = some r → l ≠ [] →
      ∀ q ∈ prev, ∃ k, (q, k) ∈ r.1.edges := by
  intro l
  induction l with
  | nil => intro net prev r h hne; exact absurd rfl hne
  | cons sub rest ih =>
    intro net prev r h hne q hq
    rw [mmnSubsteps] at h
    by_cases hko : is_ko sub = true
    · rw [if_pos hko] at h
      refine ⟨sub, ?_⟩
      exact mmnSubsteps_edges_mono rec hrecm _ _ _ _ h (q, sub)
        (addKoEdges_mem prev net sub q hq)
    · rw [if_neg hko] at h
      rcases hrc : rec sub net prev with - | r1
      · rw [hrc] at h; cases h
      · rw [hrc, option_bind_some] at h
        rcases hrecs _ _ _ _ hrc q hq with ⟨k, hk⟩
        exact ⟨k, mmnSubsteps_edges_mono rec hrecm _ _ _ _ h (q, k) hk⟩

theorem mmnSteps_parent_edge
    (rec : Str → DiGraph → List Str → Option (DiGraph × List Str))
    (hrecm : ∀ x n p r, rec x n p = some r → ∀ e ∈ n.edges, e ∈ r.1.edges)
    (hrecs : ∀ x n p r, rec x n p = some r →
      ∀ q ∈ p, ∃ k, (q, k) ∈ r.1.edges) :
    ∀ (l : List Str) (net : DiGraph) (parents : List Str) (r : DiGraph × List Str),
      mmnSteps rec l net parents = some r → l ≠ [] →
      ∀ q ∈ parents, ∃ k, (q, k) ∈ r.1.edges := by
  rintro (- | ⟨step, rest⟩) net parents r h hne q hq
  · exact absurd rfl hne
  · rw [mmnSteps] at h
    rcases h1 : mmnSubsteps rec (split_into_steps step ['+']) net parents with - | r1
    · rw [h1] at h; cases h
    · rw [h1, option_bind_some] at h
      rcases h2 : mmnSteps rec rest r1.1 parents with - | r2
      · rw [h2] at h; cases h
      · rw [h2, option_bind_some] at h
        injection h with h3
        rcases mmnSubsteps_parent_edge rec hrecm hrecs _ _ _ _ h1
          (split_into_steps_ne_nil step ['+']) q hq with ⟨k, hk⟩
        refine ⟨k, ?_⟩
        rw [← h3]
        exact mmnSteps_edges_mono rec hrecm _ _ _ _ h2 (q, k) hk

theorem make_module_network_parent_edge (f : Nat) :
    ∀ (d : Str) (net : DiGraph) (ps : List Str) (r : DiGraph × List Str),
      make_module_network f d net ps = some r →
      ∀ q ∈ ps, ∃ k, (q, k) ∈ r.1.edges := by
  induction f with
  | zero => intro d net ps r h; cases h
  | succ f ih =>
    intro d net ps r h
    rw [make_module_network] at h
    exact mmnSteps_parent_edge _
      (fun x n p r2 h2 => make_module_network_edges_mono f x n p r2 h2)
      (fun x n p r2 h2 => ih x n p r2 h2)
      _ _ _ _ h (split_into_steps_ne_nil d [','])

/-! ## Lemmas about add_end_edges and node lists -/

theorem foldl_addEdge_subset (l : List Str) (g : DiGraph) (e : Str × Str)
    (he : e ∈ g.edges) :
    e ∈ (l.foldl (fun h n => addEdge h n endS) g).edges := by
  induction l generalizing g with
  | nil => exact he
  | cons n rest ih => exact ih (addEdge g n endS) (addEdge_subset g n endS e he)

theorem foldl_addEdge_mem (l : List Str) (g : DiGraph) (v : Str) (hv : v ∈ l) :
    (v, endS) ∈ (l.foldl (fun h n => addEdge h n endS) g).edges := by
  induction l generalizing g with
  | nil => cases hv
  | cons n rest ih =>
    rcases List.mem_cons.1 hv with rfl | hv
    · exact foldl_addEdge_subset rest (addEdge g v endS) (v, endS)
        (addEdge_mem_self g v endS)
    · exact ih (addEdge g n endS) hv

theorem foldl_addEdge_closure (l : List Str) (g : DiGraph) (e : Str × Str)
    (he : e ∈ (l.foldl (fun h n => addEdge h n endS) g).edges) :
    e ∈ g.edges ∨ (e.1 ∈ l ∧ e.2 = endS) := by
  induction l generalizing g with
  | nil => exact Or.inl he
  | cons n rest ih =>
    rcases ih (addEdge g n endS) he with h | ⟨h1, h2⟩
    · rcases addEdge_closure g n endS e h with h | h
      · exact Or.inl h
      · rw [h]
        exact Or.inr ⟨List.mem_cons_self _ _, rfl⟩
    · exact Or.inr ⟨List.mem_cons_of_mem _ h1, h2⟩

theorem add_end_edges_subset (g : DiGraph) (e : Str × Str) (he : e ∈ g.edges) :
    e ∈ (add_end_edges g).edges :=
  foldl_addEdge_subset (noOutNodes g) g e he

theorem add_end_edges_sink (g : DiGraph) (v : Str) (hv : v ∈ noOutNodes g) :
    (v, endS) ∈ (add_end_edges g).edges :=
  foldl_addEdge_mem (noOutNodes g) g v hv

theorem add_end_edges_closure (g : DiGraph) (e : Str × Str)
    (he : e ∈ (add_end_edges g).edges) :
    e ∈ g.edges ∨ (e.1 ∈ noOutNodes g ∧ e.2 = endS) :=
  foldl_addEdge_closure (noOutNodes g) g e he

theorem mem_nodesList_of_edge (g : DiGraph) (e : Str × Str) (he : e ∈ g.edges) :
    e.1 ∈ nodesList g ∧ e.2 ∈ nodesList g := by
  constructor <;>
  · rw [nodesList, mem_uniqueFirst]
    refine List.mem_flatMap.2 ⟨e, he, ?_⟩
    simp

theorem exists_edge_of_outDegree_ne_zero (g : DiGraph) (v : Str)
    (h : outDegree g v ≠ 0) : ∃ w, (v, w) ∈ g.edges := by
  rw [outDegree] at h
  have hne : g.edges.filter (fun e => decide (e.1 = v)) ≠ [] := by
    intro hnil
    apply h
    rw [hnil]
    rfl
  rcases List.exists_mem_of_ne_nil _ hne with ⟨e, he⟩
  rcases List.mem_filter.1 he with ⟨he1, he2⟩
  have : e.1 = v := by simpa using he2
  exact ⟨e.2, by rw [← this]; exact he1⟩

/-! ## Claim C6 -/

/-- Claim C6 counterexample: the definition K00001+K00001 is accepted by
make_module_network but its repeated identifier creates a self loop on
K00001, which then has an outgoing edge and is not wired to the end
sentinel; K00001 is reachable from start yet cannot reach end. -/
theorem claim_C6_counterexample :
    ∃ (g : DiGraph) (ex : List Str),
      make_module_network 5 "K00001+K00001".toList ⟨[]⟩ [startS]
          = some (g, ex) ∧
      Reaches (add_end_edges g) startS "K00001".toList ∧
      ¬ Reaches (add_end_edges g) "K00001".toList endS := by
  refine ⟨⟨[(startS, "K00001".toList),
    ("K00001".toList, "K00001".toList)]⟩, ["K00001".toList], by decide, ?_, ?_⟩
  · exact Relation.ReflTransGen.single
      (show ((startS, "K00001".toList) ∈ _) from by decide)
  · intro h
    have hstay : ∀ w, Reaches (add_end_edges ⟨[(startS, "K00001".toList),
        ("K00001".toList, "K00001".toList)]⟩) "K00001".toList w →
        w = "K00001".toList := by
      intro w hw
      induction hw with
      | refl => rfl
      | tail hchain hedge ih =>
        rename_i b c
        rw [ih] at hedge
        have hedge2 : ("K00001".toList, c) ∈ [(startS, "K00001".toList),
            ("K00001".toList, "K00001".toList)] := by
          have hge : add_end_edges ⟨[(startS, "K00001".toList),
              ("K00001".toList, "K00001".toList)]⟩
              = ⟨[(startS, "K00001".toList),
                ("K00001".toList, "K00001".toList)]⟩ := by decide
          rw [hge] at hedge
          exact hedge
        rcases List.mem_cons.1 hedge2 with heq | hedge3
        · exact absurd (show "K00001".toList = startS from congrArg Prod.fst heq)
            (by decide)
        · exact show c = "K00001".toList from
            congrArg Prod.snd (List.mem_singleton.1 hedge3)
    have := hstay endS h
    exact absurd this (by decide)

/-- Claim C6, amended: for every accepted module definition, if the graph
obtained after wiring every node with no outgoing edge to the end sentinel
is acyclic, witnessed by a rank function that strictly increases along
every edge (such a function exists exactly for acyclic finite graphs),
then every node reachable from start reaches end.  The acyclicity clause
is necessary: a repeated identifier within one serial chain produces a
cycle on which the invariant fails, as the counterexample shows. -/
theorem claim_C6 (fuel : Nat) (d : Str) (g : DiGraph) (ex : List Str)
    (rank : Str → Nat)
    (hg : make_module_network fuel d ⟨[]⟩ [startS] = some (g, ex))
    (hrank : ∀ e ∈ (add_end_edges g).edges, rank e.1 < rank e.2) :
    ∀ v, Reaches (add_end_edges g) startS v →
      Reaches (add_end_edges g) v endS := by
  have hbound : ∀ v ∈ nodesList (add_end_edges g),
      rank v ≤ ((nodesList (add_end_edges g)).map rank).foldl Nat.max 0 :=
    fun v hv => le_foldl_max _ 0 (rank v) (List.mem_map.2 ⟨v, hv, rfl⟩)
  set N := ((nodesList (add_end_edges g)).map rank).foldl Nat.max 0 with hN
  have main : ∀ m v, v ∈ nodesList (add_end_edges g) → N + 1 - rank v ≤ m →
      Reaches (add_end_edges g) v endS := by
    intro m
    induction m with
    | zero =>
      intro v hv hle
      have := hbound v hv
      omega
    | succ m ih =>
      intro v hv hle
      by_cases hvend : v = endS
      · subst hvend
        exact Relation.ReflTransGen.refl
      · by_cases hout : outDegree g v = 0
        · have hvg : v ∈ nodesList g := by
            rcases List.mem_flatMap.1 ((mem_uniqueFirst _ _).1 hv)
              with ⟨e, he, hmem⟩
            rcases add_end_edges_closure g e he with heg | ⟨h1, h2⟩
            · rw [nodesList, mem_uniqueFirst]
              exact List.mem_flatMap.2 ⟨e, heg, hmem⟩
            · rcases List.mem_cons.1 hmem with rfl | hmem
              · rcases List.mem_filter.1 h1 with ⟨h3, -⟩
                exact h3
              · rw [List.mem_singleton.1 hmem, h2] at hvend
                exact absurd rfl hvend
          have hvno : v ∈ noOutNodes g := by
            rw [noOutNodes, List.mem_filter]
            exact ⟨hvg, by simpa using hout⟩
          exact Relation.ReflTransGen.single (add_end_edges_sink g v hvno)
        · rcases exists_edge_of_outDegree_ne_zero g v hout with ⟨w, hw⟩
          have hw2 : (v, w) ∈ (add_end_edges g).edges := add_end_edges_subset g _ hw
          have hrw : rank v < rank w := hrank (v, w) hw2
          have hwnode : w ∈ nodesList (add_end_edges g) :=
            (mem_nodesList_of_edge _ _ hw2).2
          have hwb := hbound w hwnode
          refine Relation.ReflTransGen.head hw2 (ih w hwnode ?_)
          omega
  intro v hv
  have hcases : v = startS ∨ v ∈ nodesList (add_end_edges g) := by
    induction hv with
    | refl => exact Or.inl rfl
    | tail hchain hedge ih =>
      exact Or.inr (mem_nodesList_of_edge _ _ hedge).2
  rcases hcases with rfl | hvn
  · rcases make_module_network_parent_edge fuel d ⟨[]⟩ [startS] (g, ex) hg
      startS (List.mem_singleton.2 rfl) with ⟨k, hk⟩
    have : startS ∈ nodesList (add_end_edges g) :=
      (mem_nodesList_of_edge _ _ (add_end_edges_subset g _ hk)).1
    exact main (N + 1) startS this (by omega)
  · exact main (N + 1) v hvn (by omega)

/-- Claim C6 witness: the amended theorem on the single-identifier
definition K00001, with a concrete rank function witnessing acyclicity,
applied to the node K00001 reached from start by one edge. -/
theorem claim_C6_witness :
    Reaches (add_end_edges ⟨[(startS, "K00001".toList)]⟩) "K00001".toList endS :=
  claim_C6 3 "K00001".toList ⟨[(startS, "K00001".toList)]⟩ ["K00001".toList]
    (fun s => if s = startS then 0 else if s = "K00001".toList then 1 else 2)
    (by decide) (by decide) "K00001".toList
    (Relation.ReflTransGen.single
      (show ((startS, "K00001".toList) ∈ _) from by decide))

/-! ## Lemmas about generated tree ids (claim C9) -/

section TreeIds

variable {f : Str → Str → Str → Str}

theorem Derived.length_lt (p x : Str) (h : Derived f p x)
    (hG : ∀ s t p, p.length < (f s t p).length) : p.length < x.length := by
  induction h with
  | base s t => exact hG s t p
  | step s t y hy ih => exact Nat.lt_trans ih (hG s t y)

theorem Derived.peel (p x : Str) (h : Derived f p x) :
    ∃ s t c, x = f s t c ∧ (c = p ∨ Derived f p c) := by
  cases h with
  | base s t => exact ⟨s, t, p, rfl, Or.inl rfl⟩
  | step s t y hy => exact ⟨s, t, y, rfl, Or.inr hy⟩

theorem Derived.not_self (p : Str)
    (hG : ∀ s t p, p.length < (f s t p).length) : ¬ Derived f p p := by
  intro h
  exact absurd (h.length_lt p p hG) (Nat.lt_irrefl _)

theorem Derived.trans (p q x : Str) (hqx : Derived f q x) (hpq : Derived f p q) :
    Derived f p x := by
  induction hqx with
  | base s t => exact Derived.step s t q hpq
  | step s t y hy ih => exact Derived.step s t y ih

theorem Derived.not_of_same_parent (s1 t1 s2 t2 p : Str)
    (hI : ∀ s t p s2 t2 p2, f s t p = f s2 t2 p2 → s = s2 ∧ t = t2 ∧ p = p2)
    (hG : ∀ s t p, p.length < (f s t p).length) :
    ¬ Derived f (f s1 t1 p) (f s2 t2 p) := by
  intro h
  rcases h.peel _ _ with ⟨a, b, c, heq, hc⟩
  rcases hI _ _ _ _ _ _ heq with ⟨-, -, rfl⟩
  rcases hc with hc | hc
  · have hlen := hG s1 t1 p
    rw [← hc] at hlen
    exact absurd hlen (Nat.lt_irrefl _)
  · have h1 := hc.length_lt _ _ hG
    have h2 := hG s1 t1 p
    omega

theorem Derived.trichotomy (n : Nat) :
    ∀ (x p1 p2 : Str), x.length ≤ n →
      (∀ s t p s2 t2 p2, f s t p = f s2 t2 p2 → s = s2 ∧ t = t2 ∧ p = p2) →
      (∀ s t p, p.length < (f s t p).length) →
      Derived f p1 x → Derived f p2 x →
      p1 = p2 ∨ Derived f p1 p2 ∨ Derived f p2 p1 := by
  induction n with
  | zero =>
    intro x p1 p2 hlen hI hG h1 h2
    rcases h1.peel _ _ with ⟨s, t, c, rfl, -⟩
    have := hG s t c
    omega
  | succ n ih =>
    intro x p1 p2 hlen hI hG h1 h2
    rcases h1.peel _ _ with ⟨s, t, c, rfl, hc1⟩
    rcases h2.peel _ _ with ⟨s2, t2, c2, heq, hc2⟩
    rcases hI _ _ _ _ _ _ heq with ⟨-, -, rfl⟩
    rcases hc1 with hc1 | hc1 <;> rcases hc2 with hc2 | hc2
    · exact Or.inl (hc1.symm.trans hc2)
    · rw [hc1] at hc2
      exact Or.inr (Or.inr hc2)
    · rw [hc2] at hc1
      exact Or.inr (Or.inl hc1)
    · have hclen : c.length ≤ n := by
        have := hG s t c
        omega
      exact ih c p1 p2 hclen hI hG hc1 hc2

end TreeIds

theorem allIdsDepth_succ_cons (depth : Nat) (n : TreeNode) (rest : List TreeNode) :
    allIdsDepth (depth + 1) (n :: rest)
      = n.id :: (allIdsDepth depth n.children ++ allIdsDepth (depth + 1) rest) := by
  rfl

theorem allIdsDepth_nil (depth : Nat) : allIdsDepth depth [] = [] := by
  cases depth <;> rfl

theorem childTargets_nodup (edges : List (Str × Str)) (source : Str)
    (hnd : edges.Nodup) : (childTargets edges source).Nodup := by
  rw [childTargets]
  refine List.Nodup.map_on ?_ (hnd.filter _)
  intro x hx y hy hxy
  rcases List.mem_filter.1 hx with ⟨-, hx2⟩
  rcases List.mem_filter.1 hy with ⟨-, hy2⟩
  have hx3 : x.1 = source := by simpa using hx2
  have hy3 : y.1 = source := by simpa using hy2
  exact Prod.ext (hx3.trans hy3.symm) hxy

theorem recurseTargets_ids
    (rec : Str → Str → Option (List TreeNode)) (f : Str → Str → Str → Str)
    (hI : ∀ s t p s2 t2 p2, f s t p = f s2 t2 p2 → s = s2 ∧ t = t2 ∧ p = p2)
    (hG : ∀ s t p, p.length < (f s t p).length)
    (hrec : ∀ t pid forest, rec t pid = some forest → ∀ depth,
      (allIdsDepth depth forest).Nodup ∧
        ∀ x ∈ allIdsDepth depth forest, Derived f pid x) :
    ∀ (ts : List Str) (source parentId : Str), ts.Nodup →
      ∀ forest, recurseTargets rec f source parentId ts = some forest →
      ∀ depth, (allIdsDepth depth forest).Nodup ∧
        (∀ x ∈ allIdsDepth depth forest,
          ∃ t2 ∈ ts, x = f source t2 parentId ∨
            Derived f (f source t2 parentId) x) := by
  intro ts
  induction ts with
  | nil =>
    intro source parentId hnd forest h depth
    injection h with h2
    rw [← h2, allIdsDepth_nil]
    exact ⟨List.nodup_nil, fun x hx => absurd hx (List.not_mem_nil x)⟩
  | cons t rest ih =>
    intro source parentId hnd forest h depth
    rw [recurseTargets] at h
    rcases h1 : rec t (f source t parentId) with - | cs
    · rw [h1] at h; cases h
    · rw [h1, option_bind_some] at h
      rcases h2 : recurseTargets rec f source parentId rest with - | others
      · rw [h2] at h; cases h
      · rw [h2] at h
        have h4 : forest = ⟨t, f source t parentId, cs⟩ :: others := by
          injection h with h3
          exact h3.symm
        subst h4
        have hcs := hrec t (f source t parentId) cs h1
        have hoth := ih source parentId (List.nodup_cons.1 hnd).2 others h2
        have htmem : t ∉ rest := (List.nodup_cons.1 hnd).1
        cases depth with
        | zero =>
          exact ⟨List.nodup_nil, fun x hx => absurd hx (List.not_mem_nil x)⟩
        | succ depth =>
          rw [allIdsDepth_succ_cons]
          constructor
          · rw [List.nodup_cons]
            constructor
            · intro hq
              rcases List.mem_append.1 hq with hq | hq
              · exact absurd ((hcs depth).2 _ hq)
                  (Derived.not_self _ hG)
              · rcases (hoth (depth + 1)).2 _ hq with ⟨t2, ht2, heq | hder⟩
                · rcases hI _ _ _ _ _ _ heq with ⟨-, rfl, -⟩
                  exact htmem ht2
                · exact absurd hder
                    (Derived.not_of_same_parent _ _ _ _ _ hI hG)
            · rw [List.nodup_append]
              refine ⟨(hcs depth).1, (hoth (depth + 1)).1, ?_⟩
              intro x hx hx2
              have hdx := (hcs depth).2 x hx
              rcases (hoth (depth + 1)).2 x hx2 with ⟨t2, ht2, heq | hder⟩
              · rw [heq] at hdx
                exact absurd hdx (Derived.not_of_same_parent _ _ _ _ _ hI hG)
              · rcases Derived.trichotomy x.length x
                  (f source t parentId) (f source t2 parentId) (Nat.le_refl _)
                  hI hG hdx hder with heq2 | hd2 | hd2
                · rcases hI _ _ _ _ _ _ heq2 with ⟨-, rfl, -⟩
                  exact htmem ht2
                · exact absurd hd2 (Derived.not_of_same_parent _ _ _ _ _ hI hG)
                · exact absurd hd2 (Derived.not_of_same_parent _ _ _ _ _ hI hG)
          · intro x hx
            rcases List.mem_cons.1 hx with rfl | hx
            · exact ⟨t, List.mem_cons_self _ _, Or.inl rfl⟩
            · rcases List.mem_append.1 hx with hx | hx
              · exact ⟨t, List.mem_cons_self _ _, Or.inr ((hcs depth).2 x hx)⟩
              · rcases (hoth (depth + 1)).2 x hx with ⟨t2, ht2, hx2⟩
                exact ⟨t2, List.mem_cons_of_mem _ ht2, hx2⟩

theorem recurse_tree_ids (edges : List (Str × Str)) (f : Str → Str → Str → Str)
    (hI : ∀ s t p s2 t2 p2, f s t p = f s2 t2 p2 → s = s2 ∧ t = t2 ∧ p = p2)
    (hG : ∀ s t p, p.length < (f s t p).length)
    (hnd : edges.Nodup) :
    ∀ (fuel : Nat) (source parentId : Str) (forest : List TreeNode),
      recurse_tree edges f fuel source parentId = some forest →
      ∀ depth, (allIdsDepth depth forest).Nodup ∧
        ∀ x ∈ allIdsDepth depth forest, Derived f parentId x := by
  intro fuel
  induction fuel with
  | zero => intro source parentId forest h; cases h
  | succ fuel ih =>
    intro source parentId forest h depth
    rw [recurse_tree] at h
    have := recurseTargets_ids (fun t pid => recurse_tree edges f fuel t pid) f
      hI hG (fun t pid forest2 h2 depth2 => ih t pid forest2 h2 depth2)
      (childTargets edges source) source parentId
      (childTargets_nodup edges source hnd) forest h depth
    refine ⟨this.1, ?_⟩
    intro x hx
    rcases this.2 x hx with ⟨t2, -, heq | hder⟩
    · rw [heq]
      exact Derived.base _ _
    · exact Derived.trans _ _ _ hder (Derived.base _ _)

theorem buildRoots_length (edges : List (Str × Str)) (f : Str → Str → Str → Str)
    (fuel : Nat) :
    ∀ (rl : List Str) (forest : List TreeNode),
      buildRoots edges f fuel rl = some forest → forest.length = rl.length := by
  intro rl
  induction rl with
  | nil =>
    intro forest h
    injection h with h2
    rw [← h2]
    rfl
  | cons r rest ih =>
    intro forest h
    rw [buildRoots] at h
    rcases h1 : recurse_tree edges f fuel r r with - | cs
    · rw [h1] at h; cases h
    · rw [h1, option_bind_some] at h
      rcases h2 : buildRoots edges f fuel rest with - | others
      · rw [h2] at h; cases h
      · rw [h2] at h
        have h4 : forest = ⟨r, r, cs⟩ :: others := by
          injection h with h3
          exact h3.symm
        subst h4
        rw [List.length_cons, List.length_cons, ih others h2]

theorem buildRoots_ids (edges : List (Str × Str)) (f : Str → Str → Str → Str)
    (hI : ∀ s t p s2 t2 p2, f s t p = f s2 t2 p2 → s = s2 ∧ t = t2 ∧ p = p2)
    (hG : ∀ s t p, p.length < (f s t p).length)
    (hnd : edges.Nodup) (fuel : Nat) :
    ∀ (rl : List Str), rl.Nodup → (∀ r ∈ rl, ∀ s t p, f s t p ≠ r) →
      ∀ (forest : List TreeNode), buildRoots edges f fuel rl = some forest →
      ∀ depth, (allIdsDepth depth forest).Nodup ∧
        ∀ x ∈ allIdsDepth depth forest,
          x ∈ rl ∨ ∃ r ∈ rl, Derived f r x := by
  intro rl
  induction rl with
  | nil =>
    intro _ _ forest h depth
    injection h with h2
    rw [← h2, allIdsDepth_nil]
    exact ⟨List.nodup_nil, fun x hx => absurd hx (List.not_mem_nil x)⟩
  | cons r rest ih =>
    intro hnd2 havoid forest h depth
    rw [buildRoots] at h
    rcases h1 : recurse_tree edges f fuel r r with - | cs
    · rw [h1] at h; cases h
    · rw [h1, option_bind_some] at h
      rcases h2 : buildRoots edges f fuel rest with - | others
      · rw [h2] at h; cases h
      · rw [h2] at h
        have h4 : forest = ⟨r, r, cs⟩ :: others := by
          injection h with h3
          exact h3.symm
        subst h4
        have hcs := recurse_tree_ids edges f hI hG hnd fuel r r cs h1
        have hoth := ih (List.nodup_cons.1 hnd2).2
          (fun r2 hr2 => havoid r2 (List.mem_cons_of_mem _ hr2)) others h2
        have hrmem : r ∉ rest := (List.nodup_cons.1 hnd2).1
        cases depth with
        | zero =>
          exact ⟨List.nodup_nil, fun x hx => absurd hx (List.not_mem_nil x)⟩
        | succ depth =>
          rw [allIdsDepth_succ_cons]
          constructor
          · rw [List.nodup_cons]
            constructor
            · intro hq
              rcases List.mem_append.1 hq with hq | hq
              · exact absurd ((hcs depth).2 _ hq) (Derived.not_self _ hG)
              · rcases (hoth (depth + 1)).2 _ hq with hq2 | ⟨r2, hr2, hder⟩
                · exact hrmem hq2
                · rcases hder.peel _ _ with ⟨a, b, c, heq, -⟩
                  exact havoid r (List.mem_cons_self _ _) a b c heq.symm
            · rw [List.nodup_append]
              refine ⟨(hcs depth).1, (hoth (depth + 1)).1, ?_⟩
              intro x hx hx2
              have hdx := (hcs depth).2 x hx
              rcases (hoth (depth + 1)).2 x hx2 with hx3 | ⟨r2, hr2, hder⟩
              · rcases hdx.peel _ _ with ⟨a, b, c, heq, -⟩
                exact havoid x (List.mem_cons_of_mem _ hx3) a b c heq.symm
              · rcases Derived.trichotomy x.length x r r2 (Nat.le_refl _)
                  hI hG hdx hder with heq2 | hd2 | hd2
                · rw [heq2] at hrmem
                  exact hrmem hr2
                · rcases hd2.peel _ _ with ⟨a, b, c, heq, -⟩
                  exact havoid r2 (List.mem_cons_of_mem _ hr2) a b c heq.symm
                · rcases hd2.peel _ _ with ⟨a, b, c, heq, -⟩
                  exact havoid r (List.mem_cons_self _ _) a b c heq.symm
          · intro x hx
            rcases List.mem_cons.1 hx with rfl | hx
            · exact Or.inl (List.mem_cons_self _ _)
            · rcases List.mem_append.1 hx with hx | hx
              · exact Or.inr ⟨r, List.mem_cons_self _ _, (hcs depth).2 x hx⟩
              · rcases (hoth (depth + 1)).2 x hx with hx2 | ⟨r2, hr2, hder⟩
                · exact Or.inl (List.mem_cons_of_mem _ hx2)
                · exact Or.inr ⟨r2, List.mem_cons_of_mem _ hr2, hder⟩

theorem mem_rootLabels (edges : List (Str × Str)) (x : Str) :
    x ∈ rootLabels edges ↔
      x ∈ edges.map (fun e => e.1) ∧ ¬ x ∈ edges.map (fun e => e.2) := by
  rw [rootLabels, mem_uniqueFirst]
  constructor
  · intro h
    rcases List.mem_map.1 h with ⟨e, he, rfl⟩
    rcases List.mem_filter.1 he with ⟨he1, he2⟩
    refine ⟨List.mem_map.2 ⟨e, he1, rfl⟩, ?_⟩
    simpa using he2
  · rintro ⟨h1, h2⟩
    rcases List.mem_map.1 h1 with ⟨e, he, rfl⟩
    exact List.mem_map.2 ⟨e, List.mem_filter.2 ⟨he, by simpa using h2⟩, rfl⟩

theorem rootLabels_nodup (edges : List (Str × Str)) : (rootLabels edges).Nodup :=
  nodup_uniqueFirst _

theorem rootLabels_length (edges : List (Str × Str)) :
    (rootLabels edges).length
      = ((edges.map (fun e => e.1)).toFinset \
          (edges.map (fun e => e.2)).toFinset).card := by
  rw [← List.toFinset_card_of_nodup (rootLabels_nodup edges)]
  congr 1
  apply Finset.ext
  intro x
  rw [List.mem_toFinset, Finset.mem_sdiff, List.mem_toFinset, List.mem_toFinset]
  exact mem_rootLabels edges x

/-! ## Claim C9 -/

/-- Claim C9 counterexample: on the edge list with the duplicated row
(a, b), build_tree (with the id callback the repository uses) succeeds and
returns a tree whose two children of the root carry the same id, so the
claimed id uniqueness fails on this edge list. -/
theorem claim_C9_counterexample :
    (build_tree [("a".toList, "b".toList), ("a".toList, "b".toList)]
        semicolonCb 3).map
      (fun ts => decide ((allIdsDepth 3 ts).Nodup)) = some false := by decide

/-- Claim C9, amended: for every duplicate-free edge list and every id
callback that is injective on its three arguments, produces ids longer
than the parent id, and never produces a root label, any forest build_tree
returns has one root per distinct source value never appearing as a
target, and all node ids (to every depth) are distinct.  Every node
carries its children list by construction.  The added hypotheses are
needed: a duplicated edge already defeats uniqueness, as the
counterexample shows. -/
theorem claim_C9 (edges : List (Str × Str)) (f : Str → Str → Str → Str)
    (fuel : Nat) (ts : List TreeNode)
    (hnd : edges.Nodup)
    (hI : ∀ s t p s2 t2 p2, f s t p = f s2 t2 p2 → s = s2 ∧ t = t2 ∧ p = p2)
    (hG : ∀ s t p, p.length < (f s t p).length)
    (hRoot : ∀ s t p, ¬ f s t p ∈ rootLabels edges)
    (hts : build_tree edges f fuel = some ts) :
    ts.length = ((edges.map (fun e => e.1)).toFinset \
      (edges.map (fun e => e.2)).toFinset).card ∧
    ∀ depth, (allIdsDepth depth ts).Nodup := by
  rw [build_tree] at hts
  constructor
  · rw [buildRoots_length edges f fuel (rootLabels edges) ts hts]
    exact rootLabels_length edges
  · intro depth
    exact (buildRoots_ids edges f hI hG hnd fuel (rootLabels edges)
      (nodup_uniqueFirst _)
      (fun r hr s t p heq => hRoot s t p (heq ▸ hr)) ts hts depth).1

theorem encStr_length (s : Str) : (encStr s).length = 2 * s.length := by
  induction s with
  | nil => rfl
  | cons c rest ih =>
    rw [encStr, List.length_cons, List.length_cons, ih, List.length_cons]
    omega

theorem encStr_inj (a : Str) : ∀ b, encStr a = encStr b → a = b := by
  induction a with
  | nil =>
    intro b h
    cases b with
    | nil => rfl
    | cons c rest => cases h
  | cons c rest ih =>
    intro b h
    cases b with
    | nil => cases h
    | cons c2 rest2 =>
      rw [encStr, encStr] at h
      injection h with h1 h2
      injection h2 with h3 h4
      rw [h3, ih rest2 h4]

theorem encStr_sep_inj (a : Str) :
    ∀ (a2 r r2 : Str), encStr a ++ 'S' :: r = encStr a2 ++ 'S' :: r2 →
      a = a2 ∧ r = r2 := by
  induction a with
  | nil =>
    intro a2 r r2 h
    cases a2 with
    | nil =>
      simp only [encStr, List.nil_append] at h
      injection h with h1 h2
      exact ⟨rfl, h2⟩
    | cons c2 rest2 =>
      simp only [encStr, List.nil_append, List.cons_append] at h
      injection h with h1 h2
      cases h1
  | cons c rest ih =>
    intro a2 r r2 h
    cases a2 with
    | nil =>
      simp only [encStr, List.nil_append, List.cons_append] at h
      injection h with h1 h2
      cases h1
    | cons c2 rest2 =>
      simp only [encStr, List.cons_append] at h
      injection h with h1 h2
      injection h2 with h3 h4
      rcases ih rest2 r r2 h4 with ⟨h5, h6⟩
      exact ⟨by rw [h3, h5], h6⟩

theorem encCb_inj (s t p s2 t2 p2 : Str) (h : encCb s t p = encCb s2 t2 p2) :
    s = s2 ∧ t = t2 ∧ p = p2 := by
  rw [encCb, encCb] at h
  rcases encStr_sep_inj s s2 _ _ h with ⟨h1, h2⟩
  rcases encStr_sep_inj t t2 _ _ h2 with ⟨h3, h4⟩
  exact ⟨h1, h3, encStr_inj p p2 h4⟩

theorem encCb_grow (s t p : Str) : p.length < (encCb s t p).length := by
  rw [encCb]
  simp only [List.length_append, List.length_cons, encStr_length]
  omega

/-- Claim C9 witness: the amended theorem applied to the concrete
duplicate-free edge list (a, b), (b, c) with the injective escape-encoding
id callback; the built forest exists and its ids to depth 4 are distinct. -/
theorem claim_C9_witness :
    (build_tree [("a".toList, "b".toList), ("b".toList, "c".toList)]
        encCb 4).isSome = true ∧
    (build_tree [("a".toList, "b".toList), ("b".toList, "c".toList)]
        encCb 4).map (fun ts => decide ((allIdsDepth 4 ts).Nodup))
      = some true := by
  have hRoot : ∀ s t p, ¬ encCb s t p ∈
      rootLabels [("a".toList, "b".toList), ("b".toList, "c".toList)] := by
    intro s t p hmem
    have hr : rootLabels [("a".toList, "b".toList), ("b".toList, "c".toList)]
        = ["a".toList] := by decide
    rw [hr] at hmem
    have hlen := congrArg List.length (List.mem_singleton.1 hmem)
    simp only [encCb, List.length_append, List.length_cons, encStr_length] at hlen
    simp at hlen
    omega
  have hsome : (build_tree [("a".toList, "b".toList), ("b".toList, "c".toList)]
      encCb 4).isSome = true := by decide
  refine ⟨hsome, ?_⟩
  rcases h : build_tree [("a".toList, "b".toList), ("b".toList, "c".toList)]
      encCb 4 with - | ts
  · rw [h] at hsome
    cases hsome
  · rw [Option.map_some']
    have hnodup := (claim_C9 [("a".toList, "b".toList), ("b".toList, "c".toList)]
      encCb 4 ts (by decide) encCb_inj encCb_grow hRoot h).2 4
    rw [decide_eq_true hnodup]
